import Mathlib

/-!
Verification development for the ebl-photo-stitcher repository.

The Python sources are shallowly embedded as Lean definitions:

* a raster (`numpy` BGR image array) is an `Img`: explicit height/width and a
  total pixel function; slicing, pasting and per-pixel arithmetic become
  arithmetic on the pixel function;
* the OpenCV grayscale conversion `cv2.cvtColor(..., COLOR_BGR2GRAY)` is the
  fixed-point BT.601 formula used by OpenCV for 8-bit data;
* floating-point fraction comparisons from the sources (for example
  `min_mark_width_px <= w` with `min_mark_width_px = roi_len * 0.04`) are
  written in cross-multiplied integer form (`4 * roi_len <= 100 * w`), which is
  equivalent to the exact rational comparison; floats are modelled as exact
  rationals throughout;
* Python exceptions become `Except String` / `Option` results;
* `//` on possibly negative Python ints is `Int.fdiv` (floor division).
-/

/-- A BGR pixel: (blue, green, red), each channel nominally 0..255. -/
abbrev Pix : Type := Nat × Nat × Nat

/-- A raster: height, width, and a total pixel function (row, column) ↦ BGR.
Values of `pix` outside `[0,h) × [0,w)` are irrelevant; image equality is the
bounded-extensional `ImgEq` below. -/
structure Img where
  h : Nat
  w : Nat
  pix : Nat → Nat → Pix

/-- `numpy` array size (`arr.size = 0` iff some dimension is zero). -/
def Img.size (a : Img) : Nat := a.h * a.w

/-- Extensional equality of rasters: same dimensions and same pixels at every
in-range coordinate. -/
def ImgEq (a b : Img) : Prop :=
  a.h = b.h ∧ a.w = b.w ∧ ∀ r < a.h, ∀ c < a.w, a.pix r c = b.pix r c

instance (a b : Img) : Decidable (ImgEq a b) := by
  unfold ImgEq; infer_instance

theorem ImgEq.refl (a : Img) : ImgEq a a := ⟨rfl, rfl, fun _ _ _ _ => rfl⟩

theorem ImgEq.symm {a b : Img} (hab : ImgEq a b) : ImgEq b a := by
  obtain ⟨hh, hw, hp⟩ := hab
  exact ⟨hh.symm, hw.symm, fun r hr c hc => (hp r (hh ▸ hr) c (hw ▸ hc)).symm⟩

theorem ImgEq.trans {a b c : Img} (hab : ImgEq a b) (hbc : ImgEq b c) : ImgEq a c := by
  obtain ⟨h1, w1, p1⟩ := hab
  obtain ⟨h2, w2, p2⟩ := hbc
  exact ⟨h1.trans h2, w1.trans w2,
    fun r hr cc hc => (p1 r hr cc hc).trans (p2 r (h1 ▸ hr) cc (w1 ▸ hc))⟩

/-- `numpy` sub-array view `arr[y0:y0+hh, x0:x0+ww]` (callers only use it with
the slice inside the parent raster). -/
def subImg (a : Img) (y0 hh x0 ww : Nat) : Img :=
  ⟨hh, ww, fun r c => a.pix (y0 + r) (x0 + c)⟩

/-- A constant raster: `np.full((hh, ww, 3), bg, dtype=np.uint8)`. -/
def constImg (hh ww : Nat) (bg : Pix) : Img := ⟨hh, ww, fun _ _ => bg⟩

/-- `cv2.rotate(img, cv2.ROTATE_180)`. -/
def rotate180 (a : Img) : Img :=
  ⟨a.h, a.w, fun r c => a.pix (a.h - 1 - r) (a.w - 1 - c)⟩

/-- OpenCV 8-bit BGR→gray conversion: fixed-point BT.601
`(1868*B + 9617*G + 4899*R + 8192) >> 14` (the coefficients sum to `2^14`). -/
def bgr2gray (p : Pix) : Nat :=
  (1868 * p.1 + 9617 * p.2.1 + 4899 * p.2.2 + 8192) / 16384

/-- All channels of every in-range pixel fit in 8 bits. -/
def Img.Valid8 (a : Img) : Prop :=
  ∀ r < a.h, ∀ c < a.w,
    (a.pix r c).1 ≤ 255 ∧ (a.pix r c).2.1 ≤ 255 ∧ (a.pix r c).2.2 ≤ 255

instance (a : Img) : Decidable a.Valid8 := by
  unfold Img.Valid8; infer_instance

theorem bgr2gray_const (v : Nat) : bgr2gray (v, v, v) = v := by
  unfold bgr2gray
  have : 1868 * v + 9617 * v + 4899 * v + 8192 = 16384 * v + 8192 := by ring
  rw [this]
  omega

theorem bgr2gray_le_255 {p : Pix} (hb : p.1 ≤ 255) (hg : p.2.1 ≤ 255)
    (hr : p.2.2 ≤ 255) : bgr2gray p ≤ 255 := by
  unfold bgr2gray
  have h1 : 1868 * p.1 + 9617 * p.2.1 + 4899 * p.2.2 + 8192 ≤ 16384 * 255 + 8192 := by
    nlinarith
  omega

/-! ### Least / greatest index helpers

These model `np.where(...)[0][0]`, `np.where(...)[0][-1]` and the extent of
`cv2.boundingRect(cv2.findNonZero(mask))`: the least and greatest index below a
bound satisfying a Boolean predicate. -/

def leastSuchAux (p : Nat → Bool) : Nat → Nat → Option Nat
  | _, 0 => none
  | k, fuel + 1 => if p k then some k else leastSuchAux p (k + 1) fuel

/-- Least `i < n` with `p i`, if any. -/
def leastSuch (n : Nat) (p : Nat → Bool) : Option Nat := leastSuchAux p 0 n

/-- Greatest `i < n` with `p i`, if any. -/
def greatestSuch : Nat → (Nat → Bool) → Option Nat
  | 0, _ => none
  | n + 1, p => if p n then some n else greatestSuch n p

theorem leastSuchAux_eq_some {p : Nat → Bool} :
    ∀ fuel k m, leastSuchAux p k fuel = some m ↔
      (k ≤ m ∧ m < k + fuel ∧ p m = true ∧ ∀ j, k ≤ j → j < m → p j = false) := by
  intro fuel
  induction fuel with
  | zero => intro k m; simp [leastSuchAux]; omega
  | succ f ih =>
    intro k m
    unfold leastSuchAux
    by_cases hk : p k
    · simp only [hk, if_pos]
      constructor
      · rintro h
        cases h
        exact ⟨le_refl _, by omega, hk, fun j h1 h2 => by omega⟩
      · rintro ⟨h1, _, _, h4⟩
        rcases Nat.eq_or_lt_of_le h1 with h | h
        · exact congrArg some h
        · exact absurd hk (by simpa using h4 k (le_refl _) h)
    · simp only [hk, if_neg, Bool.false_eq_true, not_false_iff, ite_false]
      rw [ih]
      constructor
      · rintro ⟨h1, h2, h3, h4⟩
        refine ⟨by omega, by omega, h3, fun j hj1 hj2 => ?_⟩
        rcases Nat.eq_or_lt_of_le hj1 with h | h
        · simpa [← h] using hk
        · exact h4 j h hj2
      · rintro ⟨h1, h2, h3, h4⟩
        have hkm : k ≠ m := by rintro rfl; exact hk h3
        exact ⟨by omega, by omega, h3, fun j hj1 hj2 => h4 j (by omega) hj2⟩

theorem leastSuch_eq_some {n : Nat} {p : Nat → Bool} {m : Nat} :
    leastSuch n p = some m ↔
      (m < n ∧ p m = true ∧ ∀ j < m, p j = false) := by
  unfold leastSuch
  rw [leastSuchAux_eq_some]
  constructor
  · rintro ⟨_, h2, h3, h4⟩; exact ⟨by omega, h3, fun j hj => h4 j (Nat.zero_le _) hj⟩
  · rintro ⟨h1, h2, h3⟩; exact ⟨Nat.zero_le _, by omega, h2, fun j _ hj => h3 j hj⟩

theorem greatestSuch_eq_some :
    ∀ {n : Nat} {p : Nat → Bool} {m : Nat},
    greatestSuch n p = some m ↔
      (m < n ∧ p m = true ∧ ∀ j, m < j → j < n → p j = false) := by
  intro n
  induction n with
  | zero => intro p m; simp [greatestSuch]
  | succ n ih =>
    intro p m
    unfold greatestSuch
    by_cases hn : p n
    · simp only [hn, if_pos]
      constructor
      · rintro h; cases h; exact ⟨by omega, hn, fun j h1 h2 => by omega⟩
      · rintro ⟨h1, h2, h3⟩
        rcases Nat.lt_succ_iff_lt_or_eq.mp h1 with h | h
        · exact absurd hn (by simpa using h3 n h (by omega))
        · exact congrArg some h.symm
    · simp only [hn, Bool.false_eq_true, not_false_iff, if_neg, ite_false]
      rw [ih]
      constructor
      · rintro ⟨h1, h2, h3⟩
        refine ⟨by omega, h2, fun j hj1 hj2 => ?_⟩
        rcases Nat.lt_succ_iff_lt_or_eq.mp hj2 with h | h
        · exact h3 j hj1 h
        · simpa [h] using hn
      · rintro ⟨h1, h2, h3⟩
        have hmn : m ≠ n := by rintro rfl; exact hn h2
        exact ⟨by omega, h2, fun j hj1 hj2 => h3 j hj1 (by omega)⟩

theorem leastSuch_isSome {n : Nat} {p : Nat → Bool} :
    (leastSuch n p).isSome = true ↔ ∃ i < n, p i = true := by
  constructor
  · intro h
    obtain ⟨m, hm⟩ := Option.isSome_iff_exists.mp h
    obtain ⟨h1, h2, _⟩ := leastSuch_eq_some.mp hm
    exact ⟨m, h1, h2⟩
  · rintro ⟨i, hi, hp⟩
    by_contra hcon
    rw [Option.not_isSome_iff_eq_none] at hcon
    -- if there is a witness, the least index exists: find it explicitly
    have : ∃ m, leastSuch n p = some m := by
      have hex : ∃ j, j < n ∧ p j = true := ⟨i, hi, hp⟩
      refine ⟨Nat.find hex, leastSuch_eq_some.mpr
        ⟨(Nat.find_spec hex).1, (Nat.find_spec hex).2, fun j hj => ?_⟩⟩
      have := Nat.find_min hex hj
      by_contra hj2
      exact this ⟨by
          have := (Nat.find_spec hex).1
          omega,
        by simpa using hj2⟩
    obtain ⟨m, hm⟩ := this
    rw [hcon] at hm
    cases hm

/-- Existence of a Boolean witness below `n`, via the least-index search. -/
def anyBelow (n : Nat) (p : Nat → Bool) : Bool := (leastSuch n p).isSome

theorem anyBelow_iff {n : Nat} {p : Nat → Bool} :
    anyBelow n p = true ↔ ∃ i < n, p i = true := leastSuch_isSome

/-! ### `image_utils.paste_image_onto_canvas`

The canvas and the source are BGR rasters; a BGRA source is modelled by an
optional alpha plane (`src[:,:,3]`).  Grayscale sources (converted by the
source code with `cv2.cvtColor`) are outside the claims and not modelled.
The unreachable `cv2.resize` fallback of the source (taken only when the
clipped ROI and the cropped source disagree in shape) is modelled as a `none`
result; `paste_never_resizes` below proves it is indeed unreachable. -/

/-- One channel of `bgr*alpha + target*(1-alpha)` with `alpha = a/255`,
assigned into a `uint8` array (truncation of the non-negative float = floor). -/
def alphaBlendChannel (s t a : Nat) : Nat := (s * a + t * (255 - a)) / 255

/-- The pixel value written inside the pasted region: a plain copy for a BGR
source, the alpha blend against the old canvas pixel for a BGRA source. -/
def pasteWriteValue (src : Img) (alpha : Option (Nat → Nat → Nat)) (old : Pix)
    (sr sc : Nat) : Pix :=
  match alpha with
  | none => src.pix sr sc
  | some a =>
    let p := src.pix sr sc
    let av := a sr sc
    (alphaBlendChannel p.1 old.1 av,
     alphaBlendChannel p.2.1 old.2.1 av,
     alphaBlendChannel p.2.2 old.2.2 av)

/-- `image_utils.paste_image_onto_canvas(canvas, image_to_paste, x, y)`.
Coordinates are arbitrary integers; the result is the post-call state of the
canvas argument (the source mutates `canvas_array` in place). -/
def paste_image_onto_canvas (canvas src : Img) (alpha : Option (Nat → Nat → Nat))
    (x y : Int) : Option Img :=
  if src.size = 0 then some canvas
  else
    let imgH : Int := src.h
    let imgW : Int := src.w
    let cH : Int := canvas.h
    let cW : Int := canvas.w
    let y2 := y + imgH
    let x2 := x + imgW
    if x ≥ cW ∨ y ≥ cH ∨ x2 ≤ 0 ∨ y2 ≤ 0 then some canvas
    else
      let roiY1 := max 0 y
      let roiY2 := min cH y2
      let roiX1 := max 0 x
      let roiX2 := min cW x2
      let srcY1 := max 0 (-y)
      let srcY2 := imgH - max 0 (y2 - cH)
      let srcX1 := max 0 (-x)
      let srcX2 := imgW - max 0 (x2 - cW)
      if roiY1 ≥ roiY2 ∨ roiX1 ≥ roiX2 ∨ srcY1 ≥ srcY2 ∨ srcX1 ≥ srcX2 then some canvas
      else if roiY2 - roiY1 ≠ srcY2 - srcY1 ∨ roiX2 - roiX1 ≠ srcX2 - srcX1 then
        none
      else
        some ⟨canvas.h, canvas.w, fun r c =>
          if roiY1 ≤ (r : Int) ∧ (r : Int) < roiY2 ∧ roiX1 ≤ (c : Int) ∧ (c : Int) < roiX2 then
            pasteWriteValue src alpha (canvas.pix r c)
              (srcY1 + ((r : Int) - roiY1)).toNat (srcX1 + ((c : Int) - roiX1)).toNat
          else canvas.pix r c⟩

/-- Helper predicate: canvas coordinate `(r, c)` lies in the intersection of
the canvas with the source's target rectangle at top-left `(x, y)`. -/
def inPasteRegion (src : Img) (x y : Int) (r c : Nat) : Prop :=
  y ≤ (r : Int) ∧ (r : Int) < y + src.h ∧ x ≤ (c : Int) ∧ (c : Int) < x + src.w

instance (src : Img) (x y : Int) (r c : Nat) : Decidable (inPasteRegion src x y r c) := by
  unfold inPasteRegion; infer_instance

/-- Shared specification of the paste operation: it always succeeds, preserves
the canvas dimensions, copies the matching source pixel inside the clipped
intersection, and leaves every other canvas pixel unchanged. -/
theorem paste_spec (canvas src : Img) (alpha : Option (Nat → Nat → Nat)) (x y : Int)
    (hsrc : 0 < src.size) :
    ∃ out, paste_image_onto_canvas canvas src alpha x y = some out ∧
      out.h = canvas.h ∧ out.w = canvas.w ∧
      (∀ r < canvas.h, ∀ c < canvas.w,
        (¬ inPasteRegion src x y r c → out.pix r c = canvas.pix r c) ∧
        (inPasteRegion src x y r c →
          out.pix r c = pasteWriteValue src alpha (canvas.pix r c)
            ((r : Int) - y).toNat ((c : Int) - x).toNat)) := by
  have hsz : ¬ src.size = 0 := by omega
  have hmul : 0 < src.h * src.w := by
    have := hsrc
    unfold Img.size at this
    exact this
  have hh : 0 < src.h := by
    rcases Nat.eq_zero_or_pos src.h with h | h
    · rw [h, Nat.zero_mul] at hmul; omega
    · exact h
  have hw : 0 < src.w := by
    rcases Nat.eq_zero_or_pos src.w with h | h
    · rw [h, Nat.mul_zero] at hmul; omega
    · exact h
  unfold paste_image_onto_canvas
  rw [if_neg hsz]
  by_cases hearly : (x : Int) ≥ (canvas.w : Int) ∨ (y : Int) ≥ (canvas.h : Int) ∨
      x + (src.w : Int) ≤ 0 ∨ y + (src.h : Int) ≤ 0
  · refine ⟨canvas, by simp [hearly], rfl, rfl, fun r hr c hc => ⟨fun _ => rfl, fun hin => ?_⟩⟩
    exfalso
    unfold inPasteRegion at hin
    omega
  · have hx1 : (x : Int) < (canvas.w : Int) := by omega
    have hy1 : (y : Int) < (canvas.h : Int) := by omega
    have hx2 : 0 < x + (src.w : Int) := by omega
    have hy2 : 0 < y + (src.h : Int) := by omega
    rw [if_neg hearly]
    by_cases hguard : (max 0 y ≥ min (canvas.h : Int) (y + src.h) ∨
        max 0 x ≥ min (canvas.w : Int) (x + src.w) ∨
        max 0 (-y) ≥ (src.h : Int) - max 0 (y + src.h - canvas.h) ∨
        max 0 (-x) ≥ (src.w : Int) - max 0 (x + src.w - canvas.w))
    · refine ⟨canvas, by rw [if_pos hguard], rfl, rfl,
        fun r hr c hc => ⟨fun _ => rfl, fun hin => ?_⟩⟩
      exfalso
      unfold inPasteRegion at hin
      omega
    · rw [if_neg hguard]
      have hshape : ¬ (min (canvas.h : Int) (y + src.h) - max 0 y ≠
          ((src.h : Int) - max 0 (y + src.h - canvas.h)) - max 0 (-y) ∨
          min (canvas.w : Int) (x + src.w) - max 0 x ≠
          ((src.w : Int) - max 0 (x + src.w - canvas.w)) - max 0 (-x)) := by
        omega
      rw [if_neg hshape]
      refine ⟨_, rfl, rfl, rfl, fun r hr c hc => ⟨fun hout => ?_, fun hin => ?_⟩⟩
      · simp only
        rw [if_neg]
        unfold inPasteRegion at hout
        omega
      · unfold inPasteRegion at hin
        simp only
        rw [if_pos (by omega)]
        have hrY : (max 0 (-y) + ((r : Int) - max 0 y)).toNat = ((r : Int) - y).toNat := by
          omega
        have hrX : (max 0 (-x) + ((c : Int) - max 0 x)).toNat = ((c : Int) - x).toNat := by
          omega
        rw [hrY, hrX]

/-- The `cv2.resize` fallback inside `paste_image_onto_canvas` is dead code:
the clipped target ROI and the cropped source always have the same shape. -/
theorem paste_never_resizes (canvas src : Img) (alpha : Option (Nat → Nat → Nat))
    (x y : Int) : paste_image_onto_canvas canvas src alpha x y ≠ none := by
  rcases Nat.eq_zero_or_pos src.size with h | h
  · unfold paste_image_onto_canvas
    rw [if_pos h]
    simp
  · obtain ⟨out, hout, -⟩ := paste_spec canvas src alpha x y h
    rw [hout]
    simp

/-! ### `lib/ruler_detector.py` — scale calibration

Constants from the source.  The fraction constants 0.04, 0.30, 0.40 appear in
cross-multiplied integer form inside the definitions (e.g.
`roi_len * 0.04 <= w` becomes `4 * roi_len <= 100 * w`), and `int(x * 0.25)`
style truncations become exact rational floors; Python floats are modelled as
exact rationals. -/

def ANALYSIS_SCANLINE_COUNT : Nat := 7

def MARK_BINARIZATION_THRESHOLD : Nat := 150

def MIN_ALTERNATING_MARKS_FOR_SCALE_ESTIMATION : Nat := 2

/-- A maximal constant-colour run on a binarized scanline.  `isBlack` is the
source's `'black'` type (binarized value 0, i.e. intensity below the cutoff). -/
structure Run where
  isBlack : Bool
  startIdx : Nat
  endIdx : Nat
  width : Nat
deriving DecidableEq, Repr

/-- Loop body of `extract_pixel_runs_from_scanline_data`: walks the remaining
pixels carrying the current run's colour and start index; flushes a run on
every colour change and once at the end. -/
def runsAux (cutoff : Nat) : List Nat → Nat → Bool → Nat → List Run
  | [], idx, curColor, curStart =>
    if idx - curStart > 0 then [⟨curColor, curStart, idx - 1, idx - curStart⟩] else []
  | v :: rest, idx, curColor, curStart =>
    let px := decide (v < cutoff)
    if px = curColor then runsAux cutoff rest (idx + 1) curColor curStart
    else
      (if idx - curStart > 0 then [⟨curColor, curStart, idx - 1, idx - curStart⟩] else [])
        ++ runsAux cutoff rest (idx + 1) px idx

/-- `ruler_detector.extract_pixel_runs_from_scanline_data`. -/
def extract_pixel_runs_from_scanline_data (data : List Nat) (cutoff : Nat) : List Run :=
  match data with
  | [] => []
  | v :: rest => runsAux cutoff rest 1 (decide (v < cutoff)) 0

/-- Width is inside `[roi_len * 0.04, roi_len * 0.30]` (cross-multiplied). -/
def markWidthInBounds (scanLen wdt : Nat) : Prop :=
  4 * scanLen ≤ 100 * wdt ∧ 100 * wdt ≤ 30 * scanLen

instance (scanLen wdt : Nat) : Decidable (markWidthInBounds scanLen wdt) := by
  unfold markWidthInBounds; infer_instance

/-- `|a - b| <= b * 0.40` (cross-multiplied): the source's mark-width
similarity check of a later mark `a` against the initial mark `b`. -/
def widthWithinTolerance (a b : Nat) : Prop :=
  100 * (max a b - min a b) ≤ 40 * b

instance (a b : Nat) : Decidable (widthWithinTolerance a b) := by
  unfold widthWithinTolerance; infer_instance

/-- The inner `for k in range(1, M)` loop of
`estimate_pixels_per_centimeter_from_ruler`: checks marks `j+1 .. j+M-1`
against the initial mark width `w0` (alternating colour, width bounds, width
similarity to the initial mark) and accumulates the widths; `none` models the
loop's break-with-invalid flag. -/
def markSeqCheck (runs : List Run) (scanLen j w0 : Nat) : Nat → Nat → List Nat → Option (List Nat)
  | _, 0, acc => some acc
  | k, fuel + 1, acc =>
    match runs[j + k - 1]?, runs[j + k]? with
    | some prev, some curr =>
      if curr.isBlack = prev.isBlack then none
      else if ¬ markWidthInBounds scanLen curr.width then none
      else if ¬ widthWithinTolerance curr.width w0 then none
      else markSeqCheck runs scanLen j w0 (k + 1) fuel (acc ++ [curr.width])
    | _, _ => none

/-- Candidates recorded from one scanline's run list by the `for j in
range(len(runs) - (M - 1))` loop.  Each candidate is recorded as the SUM of
the `M` collected widths: the value the source appends is
`np.mean(widths) = sum / M`, and all candidates share the denominator `M`,
so sums carry the same information with exact integer arithmetic. -/
def scanlineCandidates (runs : List Run) (scanLen : Nat) : List Nat :=
  if runs.length < MIN_ALTERNATING_MARKS_FOR_SCALE_ESTIMATION then []
  else
    (List.range (runs.length - (MIN_ALTERNATING_MARKS_FOR_SCALE_ESTIMATION - 1))).filterMap
      (fun j =>
        match runs[j]? with
        | some r0 =>
          if r0.isBlack then
            if markWidthInBounds scanLen r0.width then
              match markSeqCheck runs scanLen j r0.width 1
                  (MIN_ALTERNATING_MARKS_FOR_SCALE_ESTIMATION - 1) [r0.width] with
              | some ws => some ws.sum
              | none => none
            else none
          else none
        | none => none)

/-- Declared ruler edge. -/
inductive RulerPos
  | top
  | bottom
  | left
  | right
deriving DecidableEq, Repr

/-- ROI extraction of `estimate_pixels_per_centimeter_from_ruler`:
the sub-raster for the declared edge plus the scan-axis length
(`roi_scan_dimension_length_px`); `none` models the `ValueError` on
invalid ROI coordinates.  The fraction constants are
`ROI_VERTICAL_[START,END]_FRACTION = 0.0, 0.25` and
`ROI_HORIZONTAL_[START,END]_FRACTION = 0.02, 0.15`. -/
def rulerROI (img : Img) (pos : RulerPos) : Option (Img × Nat) :=
  match pos with
  | .top =>
    let ye := img.h * 25 / 100
    if 0 < ye ∧ ye ≤ img.h then some (subImg img 0 ye 0 img.w, img.w) else none
  | .bottom =>
    let ys := img.h * 75 / 100
    if ys < img.h then some (subImg img ys (img.h - ys) 0 img.w, img.w) else none
  | .left =>
    let xs := img.w * 2 / 100
    let xe := img.w * 15 / 100
    if xs < xe ∧ xe ≤ img.w then some (subImg img 0 img.h xs (xe - xs), img.h) else none
  | .right =>
    let xs := img.w * 85 / 100
    let xe := img.w * 98 / 100
    if xs < xe ∧ xe ≤ img.w then some (subImg img 0 img.h xs (xe - xs), img.h) else none

/-- Scanline `i` of the grayscale ROI: a row for top/bottom edges, a column
for left/right edges, at coordinate `int(dim * ((i + 0.5) / 7))`
(= `dim * (2*i + 1) / 14` exactly). -/
def scanlineData (roi : Img) (pos : RulerPos) (i : Nat) : List Nat :=
  match pos with
  | .top | .bottom =>
    let coord := roi.h * (2 * i + 1) / (2 * ANALYSIS_SCANLINE_COUNT)
    (List.range roi.w).map (fun c => bgr2gray (roi.pix coord c))
  | .left | .right =>
    let coord := roi.w * (2 * i + 1) / (2 * ANALYSIS_SCANLINE_COUNT)
    (List.range roi.h).map (fun r => bgr2gray (roi.pix r coord))

/-- All candidates collected over the `ANALYSIS_SCANLINE_COUNT` scanlines of
one ROI (in scanline order, empty scanlines skipped). -/
def rulerCandidatesROI (roi : Img) (scanLen : Nat) (pos : RulerPos) : List Nat :=
  ((List.range ANALYSIS_SCANLINE_COUNT).map (fun i =>
    let data := scanlineData roi pos i
    if data = [] then []
    else scanlineCandidates
      (extract_pixel_runs_from_scanline_data data MARK_BINARIZATION_THRESHOLD) scanLen)).flatten

/-- Candidate mark-width sums collected for an image and declared edge
(empty when ROI extraction already fails). -/
def rulerCandidates (img : Img) (pos : RulerPos) : List Nat :=
  match rulerROI img pos with
  | none => []
  | some (roi, scanLen) => rulerCandidatesROI roi scanLen pos

def insertSorted (x : Nat) : List Nat → List Nat
  | [] => [x]
  | y :: ys => if x ≤ y then x :: y :: ys else y :: insertSorted x ys

def sortNat (l : List Nat) : List Nat := l.foldr insertSorted []

/-- `np.median` over the candidate means, as a (numerator, denominator) pair.
Candidates are width sums whose means are `sum / M`; sorting sums sorts the
means, the odd case takes the middle mean `s / M`, the even case averages the
two middle means: `(s1 + s2) / (2 * M)`. -/
def medianND (sums : List Nat) : Nat × Nat :=
  let s := sortNat sums
  let n := s.length
  if n % 2 = 1 then (s.getD (n / 2) 0, MIN_ALTERNATING_MARKS_FOR_SCALE_ESTIMATION)
  else (s.getD (n / 2 - 1) 0 + s.getD (n / 2) 0,
    2 * MIN_ALTERNATING_MARKS_FOR_SCALE_ESTIMATION)

/-- `np.median` of the candidate means as a rational. -/
def npMedianOfMeans (sums : List Nat) : ℚ := mkRat (medianND sums).1 (medianND sums).2

/-- `lib/ruler_detector.estimate_pixels_per_centimeter_from_ruler` from the
ROI step onward (`cv2.imread` is the external decode; the raster is the
input).  Raised `ValueError`s become `Except.error`. -/
def estimate_pixels_per_centimeter_from_ruler (img : Img) (pos : RulerPos) :
    Except String ℚ :=
  match rulerROI img pos with
  | none => .error "Invalid ROI coordinates for ruler position."
  | some (roi, scanLen) =>
    if roi.size = 0 then .error "Ruler ROI is empty."
    else
      let cands := rulerCandidatesROI roi scanLen pos
      if cands = [] then .error "No consistent ruler mark pattern found meeting all criteria."
      else
        let nd := medianND cands
        if nd.1 ≤ nd.2 then .error "Estimated pixels_per_cm is too small."
        else .ok (mkRat nd.1 nd.2)

/-- Consecutive runs alternate in colour. -/
def alternatingRun : List Run → Bool
  | [] => true
  | [_] => true
  | a :: b :: rest => (!(a.isBlack == b.isBlack)) && alternatingRun (b :: rest)

/-- The candidate set as claim C5 words it: every window of `M` consecutive
alternating-colour marks (no requirement on the leading colour) whose widths
are all inside the `[0.04, 0.30]` ROI-fraction bounds and mutually within the
0.40 tolerance fraction of each other; recorded as width sums exactly like
`scanlineCandidates`. -/
def claimedScanlineCandidates (runs : List Run) (scanLen : Nat) : List Nat :=
  (List.range (runs.length - (MIN_ALTERNATING_MARKS_FOR_SCALE_ESTIMATION - 1))).filterMap
    (fun j =>
      let win := (runs.drop j).take MIN_ALTERNATING_MARKS_FOR_SCALE_ESTIMATION
      if (decide (win.length = MIN_ALTERNATING_MARKS_FOR_SCALE_ESTIMATION)
          && alternatingRun win
          && win.all (fun r => decide (markWidthInBounds scanLen r.width))
          && win.all (fun a => win.all (fun b => decide (widthWithinTolerance a.width b.width))))
      then some (win.map Run.width).sum else none)

/-! ### Ruler-detector theorems -/

theorem mkRat_nat_le_one {a b : Nat} (hb : 0 < b) : mkRat (a : Int) b ≤ 1 ↔ a ≤ b := by
  rw [Rat.mkRat_eq_div]
  rw [div_le_one (by exact_mod_cast hb)]
  constructor
  · intro h
    exact_mod_cast h
  · intro h
    exact_mod_cast h

theorem mkRat_nat_pos {a b : Nat} (hb : 0 < b) (ha : 0 < a) : 0 < mkRat (a : Int) b := by
  rw [Rat.mkRat_eq_div]
  apply div_pos
  · exact_mod_cast ha
  · exact_mod_cast hb

theorem medianND_den_pos (l : List Nat) : 0 < (medianND l).2 := by
  unfold medianND MIN_ALTERNATING_MARKS_FOR_SCALE_ESTIMATION
  simp only
  split <;> simp

theorem rulerROI_empty_candidates {img : Img} {pos : RulerPos} {roi : Img} {scanLen : Nat}
    (hroi : rulerROI img pos = some (roi, scanLen)) (hsz : roi.size = 0) :
    rulerCandidatesROI roi scanLen pos = [] := by
  have hdata : ∀ i, scanlineData roi pos i = [] := by
    intro i
    cases pos with
    | top =>
      unfold rulerROI at hroi
      simp only at hroi
      split at hroi
      · rename_i hcond
        injection hroi with hroi
        injection hroi with h1 h2
        subst h1
        have hw0 : img.w = 0 := by
          unfold Img.size subImg at hsz
          simp only at hsz
          rcases Nat.mul_eq_zero.mp hsz with h | h
          · omega
          · exact h
        unfold scanlineData subImg
        simp [hw0]
      · cases hroi
    | bottom =>
      unfold rulerROI at hroi
      simp only at hroi
      split at hroi
      · rename_i hcond
        injection hroi with hroi
        injection hroi with h1 h2
        subst h1
        have hw0 : img.w = 0 := by
          unfold Img.size subImg at hsz
          simp only at hsz
          rcases Nat.mul_eq_zero.mp hsz with h | h
          · omega
          · exact h
        unfold scanlineData subImg
        simp [hw0]
      · cases hroi
    | left =>
      unfold rulerROI at hroi
      simp only at hroi
      split at hroi
      · rename_i hcond
        injection hroi with hroi
        injection hroi with h1 h2
        subst h1
        have hh0 : img.h = 0 := by
          unfold Img.size subImg at hsz
          simp only at hsz
          rcases Nat.mul_eq_zero.mp hsz with h | h
          · exact h
          · omega
        unfold scanlineData subImg
        simp [hh0]
      · cases hroi
    | right =>
      unfold rulerROI at hroi
      simp only at hroi
      split at hroi
      · rename_i hcond
        injection hroi with hroi
        injection hroi with h1 h2
        subst h1
        have hh0 : img.h = 0 := by
          unfold Img.size subImg at hsz
          simp only at hsz
          rcases Nat.mul_eq_zero.mp hsz with h | h
          · exact h
          · omega
        unfold scanlineData subImg
        simp [hh0]
      · cases hroi
  unfold rulerCandidatesROI
  have : ∀ i ∈ List.range ANALYSIS_SCANLINE_COUNT,
      (fun i => if h : scanlineData roi pos i = [] then ([] : List Nat)
        else scanlineCandidates
          (extract_pixel_runs_from_scanline_data (scanlineData roi pos i)
            MARK_BINARIZATION_THRESHOLD) scanLen) i = [] := by
    intro i _
    simp [hdata i]
  simp [hdata]

/-- C1: for every raster and declared ruler edge, scale estimation fails
exactly when no candidate tick-run was collected from any scanline or the
median of the collected candidate means is at most 1 pixel/cm; in every other
case it returns that median, a positive pixels-per-centimeter value. -/
theorem estimate_scale_gate (img : Img) (pos : RulerPos) :
    ((estimate_pixels_per_centimeter_from_ruler img pos).isOk = false ↔
      (rulerCandidates img pos = [] ∨ npMedianOfMeans (rulerCandidates img pos) ≤ 1)) ∧
    (∀ q, estimate_pixels_per_centimeter_from_ruler img pos = .ok q →
      q = npMedianOfMeans (rulerCandidates img pos) ∧ 0 < q) := by
  unfold estimate_pixels_per_centimeter_from_ruler rulerCandidates npMedianOfMeans
  cases hroi : rulerROI img pos with
  | none => exact ⟨⟨fun _ => Or.inl rfl, fun _ => rfl⟩, fun q hq => by cases hq⟩
  | some pr =>
    obtain ⟨roi, scanLen⟩ := pr
    simp only
    by_cases hsz : roi.size = 0
    · have hempty := rulerROI_empty_candidates hroi hsz
      rw [if_pos hsz]
      exact ⟨⟨fun _ => Or.inl hempty, fun _ => rfl⟩, fun q hq => by cases hq⟩
    · rw [if_neg hsz]
      by_cases hc : rulerCandidatesROI roi scanLen pos = []
      · rw [if_pos hc]
        exact ⟨⟨fun _ => Or.inl hc, fun _ => rfl⟩, fun q hq => by cases hq⟩
      · rw [if_neg hc]
        by_cases hle : (medianND (rulerCandidatesROI roi scanLen pos)).1 ≤
            (medianND (rulerCandidatesROI roi scanLen pos)).2
        · rw [if_pos hle]
          exact ⟨⟨fun _ => Or.inr ((mkRat_nat_le_one (medianND_den_pos _)).mpr hle),
              fun _ => rfl⟩,
            fun q hq => by cases hq⟩
        · rw [if_neg hle]
          constructor
          · constructor
            · intro h
              exact absurd h (by simp [Except.isOk, Except.toBool])
            · intro h
              rcases h with h | h
              · exact absurd h hc
              · exact absurd ((mkRat_nat_le_one (medianND_den_pos _)).mp h) hle
          · intro q hq
            injection hq with hq
            refine ⟨hq.symm, ?_⟩
            rw [← hq]
            apply mkRat_nat_pos (medianND_den_pos _)
            omega

/-- Witness for C1: a solid gray band (no alternating pattern) yields a
calibration failure with an empty candidate set, and a striped ruler image
succeeds with the (positive) median of its candidates. -/
theorem estimate_scale_gate_witness :
    ((estimate_pixels_per_centimeter_from_ruler ⟨8, 40, fun _ _ => (100, 100, 100)⟩
        RulerPos.top).isOk = false ∧
      rulerCandidates ⟨8, 40, fun _ _ => (100, 100, 100)⟩ RulerPos.top = []) ∧
    (0 < mkRat ((40 : Nat) : Int) 4) :=
  ⟨⟨(estimate_scale_gate ⟨8, 40, fun _ _ => (100, 100, 100)⟩ RulerPos.top).1.mpr
      (Or.inl (by decide)), by decide⟩,
    ((estimate_scale_gate
        ⟨8, 40, fun _ c => if c % 20 < 10 then (100, 100, 100) else (200, 200, 200)⟩
        RulerPos.top).2 (mkRat ((40 : Nat) : Int) 4) (by rfl)).2⟩

/-- C5 (amended): the candidates a scanline contributes are exactly the
windows of `M = 2` consecutive runs that START AT A BLACK (below-threshold)
run, alternate in colour, have both widths inside the `[0.04, 0.30]`
ROI-fraction bounds, and whose second width is within the 0.40 tolerance
fraction OF THE FIRST width; each accepted window contributes the sum of its
two widths (its recorded mean times `M`).  Windows may overlap; no maximality
("longest run") is required. -/
theorem scanlineCandidates_characterization (runs : List Run) (scanLen : Nat) :
    scanlineCandidates runs scanLen =
      (List.range (runs.length - 1)).filterMap (fun j =>
        match runs[j]?, runs[j + 1]? with
        | some a, some b =>
          if a.isBlack = true ∧ ¬ b.isBlack = a.isBlack ∧
              markWidthInBounds scanLen a.width ∧ markWidthInBounds scanLen b.width ∧
              widthWithinTolerance b.width a.width
          then some (a.width + b.width) else none
        | _, _ => none) := by
  unfold scanlineCandidates MIN_ALTERNATING_MARKS_FOR_SCALE_ESTIMATION
  by_cases hlen : runs.length < 2
  · rw [if_pos hlen]
    have h0 : runs.length - 1 = 0 := by omega
    rw [h0]
    simp
  · rw [if_neg hlen]
    have h21 : 2 - 1 = 1 := rfl
    rw [h21]
    apply List.filterMap_congr
    intro j hj
    have hj1 : j < runs.length := by
      have := List.mem_range.mp hj
      omega
    have hj2 : j + 1 < runs.length := by
      have := List.mem_range.mp hj
      omega
    have e1 : runs[j]? = some runs[j] := List.getElem?_eq_getElem hj1
    have e2 : runs[j + 1]? = some runs[j + 1] := List.getElem?_eq_getElem hj2
    have hidx : j + 1 - 1 = j := by omega
    rw [e1, e2]
    simp only
    cases hab : runs[j].isBlack with
    | false => simp [hab]
    | true =>
      cases hbB : runs[j + 1].isBlack <;>
        by_cases hba : markWidthInBounds scanLen runs[j].width <;>
          by_cases hbb : markWidthInBounds scanLen runs[j + 1].width <;>
            by_cases htol : widthWithinTolerance runs[j + 1].width runs[j].width <;>
              simp [markSeqCheck, hidx, e1, e2, hab, hbB, hba, hbb, htol]

/-- C5 counterexample: on the scanline made of 10 bright, 12 dark and 30
bright pixels (runs white-10, black-12, white-30; ROI scan length 52), the
code records no candidate (the only in-bounds alternating window starts at a
white run, which the source skips), while the candidate set described by the
claim contains the window (10, 12) with mean 11 (recorded here as the width
sum 22). -/
theorem scanlineCandidates_counterexample :
    scanlineCandidates
      (extract_pixel_runs_from_scanline_data
        (List.replicate 10 200 ++ List.replicate 12 100 ++ List.replicate 30 200)
        MARK_BINARIZATION_THRESHOLD) 52 = [] ∧
    claimedScanlineCandidates
      (extract_pixel_runs_from_scanline_data
        (List.replicate 10 200 ++ List.replicate 12 100 ++ List.replicate 30 200)
        MARK_BINARIZATION_THRESHOLD) 52 = [22] := by
  constructor
  · decide
  · decide

/-! ### `remove_background.py` — background colour detection

Both versions of `detect_dominant_corner_background_color` are embedded: the
current one in `src/lib/remove_background.py` (returns the averaged corner
colour, default `corner_fraction = 0.7`) and the earlier one in
`src/remove_background.py` (buckets mean corner brightness into pure
black/white, default `corner_fraction = 0.1`). -/

/-- `arr[r0:r0+s, c0:c0+s].reshape(-1, 3)`: the pixels of one square corner
section, row-major. -/
def sectionPixels (img : Img) (r0 c0 s : Nat) : List Pix :=
  (List.range s).flatMap (fun i => (List.range s).map (fun j => img.pix (r0 + i) (c0 + j)))

/-- The four corner sections, in source order: top-left, top-right,
bottom-left, bottom-right. -/
def cornerSections (img : Img) (s : Nat) : List (List Pix) :=
  [sectionPixels img 0 0 s,
   sectionPixels img 0 (img.w - s) s,
   sectionPixels img (img.h - s) 0 s,
   sectionPixels img (img.h - s) (img.w - s) s]

namespace LibRemoveBackground

/-- `lib/remove_background.detect_dominant_corner_background_color` with the
default `corner_fraction = 0.7`: `sample_size = int(min(h, w) * 0.7)`, all
corner pixels concatenated, per-channel `np.mean(...).astype(int)` (floor) and
`np.clip(..., 0, 255)`. -/
def detect_dominant_corner_background_color (img : Img) : Pix :=
  let s := min img.h img.w * 7 / 10
  let pixels := (cornerSections img s).flatten
  if pixels = [] then (0, 0, 0)
  else
    let n := pixels.length
    (min 255 ((pixels.map (fun p => p.1)).sum / n),
     min 255 ((pixels.map (fun p => p.2.1)).sum / n),
     min 255 ((pixels.map (fun p => p.2.2)).sum / n))

end LibRemoveBackground

namespace RootRemoveBackground

/-- `src/remove_background.detect_dominant_corner_background_color` with the
defaults `corner_fraction = 0.1`, `brightness_threshold = 127`: grayscale mean
of each corner section, mean of those means, bucketed into pure white/black.
With the four sections all of size `s*s` the mean of the per-section means is
`graySum / (4*s*s)` exactly, and `mean > 127` cross-multiplies to the integer
comparison used here. -/
def detect_dominant_corner_background_color (img : Img) : Pix :=
  let s := min img.h img.w / 10
  if s = 0 then (0, 0, 0)
  else
    let graySum := ((cornerSections img s).flatten.map (fun p => bgr2gray p)).sum
    if 127 * (4 * s * s) < graySum then (255, 255, 255) else (0, 0, 0)

end RootRemoveBackground

/-- `sumRange n f = f 0 + ... + f (n-1)`. -/
def sumRange (n : Nat) (f : Nat → Nat) : Nat :=
  match n with
  | 0 => 0
  | n + 1 => sumRange n f + f n

/-- Double sum over an `s × s` index square. -/
def sum2 (s : Nat) (f : Nat → Nat → Nat) : Nat := sumRange s (fun i => sumRange s (f i))

/-- The claim-side channel total of the four sampled corner regions, written
as explicit index sums (top-left, top-right, bottom-left, bottom-right). -/
def cornerChannelSum (img : Img) (s : Nat) (ch : Pix → Nat) : Nat :=
  sum2 s (fun i j => ch (img.pix i j)) +
  sum2 s (fun i j => ch (img.pix i (img.w - s + j))) +
  sum2 s (fun i j => ch (img.pix (img.h - s + i) j)) +
  sum2 s (fun i j => ch (img.pix (img.h - s + i) (img.w - s + j)))

/-! ### Background-detector theorems -/

theorem sum_map_range (n : Nat) (g : Nat → Nat) :
    ((List.range n).map g).sum = sumRange n g := by
  induction n with
  | zero => rfl
  | succ n ih =>
    rw [List.range_succ, List.map_append, List.sum_append, ih]
    simp [sumRange]

theorem sum_map_flatMap {α β : Type} (l : List α) (f : α → List β) (ch : β → Nat) :
    (((l.flatMap f)).map ch).sum = (l.map (fun a => ((f a).map ch).sum)).sum := by
  induction l with
  | nil => rfl
  | cons a rest ih =>
    rw [List.flatMap_cons, List.map_append, List.sum_append, ih, List.map_cons,
      List.sum_cons]

theorem length_flatMap_nat {α β : Type} (l : List α) (f : α → List β) :
    (l.flatMap f).length = (l.map (fun a => (f a).length)).sum := by
  induction l with
  | nil => rfl
  | cons a rest ih =>
    rw [List.flatMap_cons, List.length_append, ih, List.map_cons, List.sum_cons]

theorem sumRange_const (n v : Nat) : sumRange n (fun _ => v) = n * v := by
  induction n with
  | zero => simp [sumRange]
  | succ n ih =>
    unfold sumRange
    rw [ih]
    ring

theorem sectionPixels_map_sum (img : Img) (r0 c0 s : Nat) (ch : Pix → Nat) :
    ((sectionPixels img r0 c0 s).map ch).sum =
      sum2 s (fun i j => ch (img.pix (r0 + i) (c0 + j))) := by
  unfold sectionPixels sum2
  rw [sum_map_flatMap]
  rw [← sum_map_range]
  congr 1
  apply List.map_congr_left
  intro i _
  rw [List.map_map, sum_map_range]
  rfl

theorem sectionPixels_length (img : Img) (r0 c0 s : Nat) :
    (sectionPixels img r0 c0 s).length = s * s := by
  unfold sectionPixels
  rw [length_flatMap_nat]
  have : ∀ i, ((List.range s).map (fun j => img.pix (r0 + i) (c0 + j))).length = s := by
    intro i
    rw [List.length_map, List.length_range]
  calc ((List.range s).map fun a =>
        ((List.range s).map fun j => img.pix (r0 + a) (c0 + j)).length).sum
      = ((List.range s).map fun _ => s).sum := by
        congr 1
        exact List.map_congr_left (fun i _ => this i)
    _ = sumRange s (fun _ => s) := sum_map_range s _
    _ = s * s := sumRange_const s s

/-- C6 (amended): the current (lib) detector returns the literal channel-wise
average of the sampled corner pixels — per channel the floor of
(sum over the four corner index squares) / (4·s²), clipped to 255 — whenever
the corner sample size `s = int(min(h,w) * 0.7)` is positive. -/
theorem detect_background_lib_is_average (img : Img)
    (hs : 0 < min img.h img.w * 7 / 10) :
    LibRemoveBackground.detect_dominant_corner_background_color img =
      (min 255 (cornerChannelSum img (min img.h img.w * 7 / 10) (fun p => p.1) /
          (4 * (min img.h img.w * 7 / 10) * (min img.h img.w * 7 / 10))),
       min 255 (cornerChannelSum img (min img.h img.w * 7 / 10) (fun p => p.2.1) /
          (4 * (min img.h img.w * 7 / 10) * (min img.h img.w * 7 / 10))),
       min 255 (cornerChannelSum img (min img.h img.w * 7 / 10) (fun p => p.2.2) /
          (4 * (min img.h img.w * 7 / 10) * (min img.h img.w * 7 / 10)))) := by
  unfold LibRemoveBackground.detect_dominant_corner_background_color
  set s := min img.h img.w * 7 / 10 with hsdef
  have hne : (cornerSections img s).flatten ≠ [] := by
    unfold cornerSections
    simp only [List.flatten]
    intro hcon
    have h1 := congrArg List.length hcon
    rw [List.length_append, sectionPixels_length] at h1
    simp at h1
    omega
  rw [if_neg hne]
  have hlen : (cornerSections img s).flatten.length = 4 * s * s := by
    unfold cornerSections
    simp only [List.flatten, List.append_nil]
    rw [List.length_append, List.length_append, List.length_append,
      sectionPixels_length, sectionPixels_length, sectionPixels_length,
      sectionPixels_length]
    ring
  have hsum : ∀ ch : Pix → Nat,
      ((cornerSections img s).flatten.map ch).sum = cornerChannelSum img s ch := by
    intro ch
    unfold cornerSections cornerChannelSum
    simp only [List.flatten, List.append_nil]
    rw [List.map_append, List.map_append, List.map_append,
      List.sum_append, List.sum_append, List.sum_append,
      sectionPixels_map_sum, sectionPixels_map_sum, sectionPixels_map_sum,
      sectionPixels_map_sum]
    simp [Nat.add_assoc]
  rw [hlen, hsum, hsum, hsum]

/-- Witness for C6's amended theorem: on a uniform 3×3 raster of colour
(10, 20, 30) the sample size is 2 and the detector returns exactly that
colour, the literal average. -/
theorem detect_background_lib_is_average_witness :
    LibRemoveBackground.detect_dominant_corner_background_color
      ⟨3, 3, fun _ _ => (10, 20, 30)⟩ = (10, 20, 30) :=
  (detect_background_lib_is_average ⟨3, 3, fun _ _ => (10, 20, 30)⟩ (by decide)).trans
    (by decide)

set_option maxRecDepth 8000 in
/-- C6 counterexample: on a uniform 20×20 raster of colour (200, 200, 200)
the earlier (root) detector returns canonical pure white, not the literal
averaged colour (200, 200, 200) that the current (lib) detector returns. -/
theorem detect_background_root_canonicalizes :
    RootRemoveBackground.detect_dominant_corner_background_color
        ⟨20, 20, fun _ _ => (200, 200, 200)⟩ = (255, 255, 255) ∧
    LibRemoveBackground.detect_dominant_corner_background_color
        ⟨20, 20, fun _ _ => (200, 200, 200)⟩ = (200, 200, 200) ∧
    ((255, 255, 255) : Pix) ≠ (200, 200, 200) := by
  refine ⟨by decide, by decide, by decide⟩

/-! ### `lib/stitch_images.py` — sequence blending

`_blend_images_horizontally` / `_blend_images_vertically` (leading underscores
dropped).  `np.concatenate` raises unless the non-concatenation dimensions
agree; that failure is `none`.  `cv2.addWeighted` with the linspace gradient
is modelled as the element-wise convex combination the source intends,
truncated back to `uint8` (floor, the values being non-negative). -/

/-- `np.concatenate((a, b), axis=1)`. -/
def hConcat (a b : Img) : Option Img :=
  if a.h = b.h then
    some ⟨a.h, a.w + b.w, fun r c => if c < a.w then a.pix r c else b.pix r (c - a.w)⟩
  else none

/-- `np.concatenate((a, b), axis=0)`. -/
def vConcat (a b : Img) : Option Img :=
  if a.w = b.w then
    some ⟨a.h + b.h, a.w, fun r c => if r < a.h then a.pix r c else b.pix (r - a.h) c⟩
  else none

/-- `arr[:, :k]` (for `k ≤ a.w`). -/
def takeCols (a : Img) (k : Nat) : Img := ⟨a.h, min k a.w, a.pix⟩

/-- `arr[:k, :]` (for `k ≤ a.h`). -/
def takeRows (a : Img) (k : Nat) : Img := ⟨min k a.h, a.w, a.pix⟩

/-- `np.linspace(0, 1, n)[k]`: `k / (n - 1)`, with the single sample 0 when
`n = 1`. -/
def linspace01 (n k : Nat) : ℚ := if n ≤ 1 then 0 else mkRat (k : Int) (n - 1)

/-- One channel of `base*(1-alpha) + new*alpha` cast back to `uint8`. -/
def gradBlendChannel (bch nch : Nat) (a : ℚ) : Nat :=
  ((1 - a) * (bch : ℚ) + a * (nch : ℚ)).floor.toNat

/-- `stitch_images._blend_images_horizontally(base, new, overlap_px)`.  The
main branch materializes the concatenation
`(base[:h, :base_w-ov] | blended overlap | new[:h, ov:])` directly. -/
def blend_images_horizontally (base new : Img) (overlap : Int) : Option Img :=
  if overlap ≤ 0 then hConcat base new
  else
    let ov := overlap.toNat
    if base.w < ov ∨ new.w < ov then
      hConcat (takeCols base (if ov < base.w then base.w - ov else 0)) new
    else
      let h := min base.h new.h
      let baseC := takeRows base h
      let newC := takeRows new h
      some ⟨h, (base.w - ov) + ov + (new.w - ov), fun r c =>
        if c < base.w - ov then baseC.pix r c
        else if c < base.w then
          let j := c - (base.w - ov)
          let al := linspace01 ov j
          let bp := baseC.pix r c
          let np2 := newC.pix r j
          (gradBlendChannel bp.1 np2.1 al, gradBlendChannel bp.2.1 np2.2.1 al,
           gradBlendChannel bp.2.2 np2.2.2 al)
        else newC.pix r (c - (base.w - ov))⟩

/-- `stitch_images._blend_images_vertically(base, new, overlap_px)`. -/
def blend_images_vertically (base new : Img) (overlap : Int) : Option Img :=
  if overlap ≤ 0 then vConcat base new
  else
    let ov := overlap.toNat
    if base.h < ov ∨ new.h < ov then
      vConcat (takeRows base (if ov < base.h then base.h - ov else 0)) new
    else
      let w := min base.w new.w
      let baseC := takeCols base w
      let newC := takeCols new w
      some ⟨(base.h - ov) + ov + (new.h - ov), w, fun r c =>
        if r < base.h - ov then baseC.pix r c
        else if r < base.h then
          let j := r - (base.h - ov)
          let al := linspace01 ov j
          let bp := baseC.pix r c
          let np2 := newC.pix j c
          (gradBlendChannel bp.1 np2.1 al, gradBlendChannel bp.2.1 np2.2.1 al,
           gradBlendChannel bp.2.2 np2.2.2 al)
        else newC.pix (r - (base.h - ov)) c⟩

/-! ### Blend theorems -/

/-- C3 (amended): when either extent along the blend axis is smaller than the
(positive) overlap, the pair degrades to the concatenation of a TRUNCATED
first image with the whole second image: the first image loses its last
`overlap` columns/rows when it is wider/taller than the overlap, and is
dropped entirely otherwise; the second image is kept whole.  The degenerate
concatenation still requires the cross-axis extents to agree — otherwise the
operation fails (a `numpy` concatenation error), it does not concatenate. -/
theorem blend_degrade_truncated_concat (a b : Img) (ov : Int) (hov : 0 < ov) :
    (a.w < ov.toNat ∨ b.w < ov.toNat →
      (a.h = b.h → ∃ out, blend_images_horizontally a b ov = some out ∧
        out.h = a.h ∧
        out.w = (if ov.toNat < a.w then a.w - ov.toNat else 0) + b.w ∧
        ∀ r c, out.pix r c =
          if c < (if ov.toNat < a.w then a.w - ov.toNat else 0) then a.pix r c
          else b.pix r (c - (if ov.toNat < a.w then a.w - ov.toNat else 0))) ∧
      (¬ a.h = b.h → blend_images_horizontally a b ov = none)) ∧
    (a.h < ov.toNat ∨ b.h < ov.toNat →
      (a.w = b.w → ∃ out, blend_images_vertically a b ov = some out ∧
        out.w = a.w ∧
        out.h = (if ov.toNat < a.h then a.h - ov.toNat else 0) + b.h ∧
        ∀ r c, out.pix r c =
          if r < (if ov.toNat < a.h then a.h - ov.toNat else 0) then a.pix r c
          else b.pix (r - (if ov.toNat < a.h then a.h - ov.toNat else 0)) c) ∧
      (¬ a.w = b.w → blend_images_vertically a b ov = none)) := by
  have hle : ¬ ov ≤ 0 := by omega
  constructor
  · intro hdeg
    constructor
    · intro hh
      unfold blend_images_horizontally
      rw [if_neg hle]
      simp only [hdeg, if_pos]
      unfold hConcat takeCols
      simp only
      rw [if_pos hh]
      have hmin : min (if ov.toNat < a.w then a.w - ov.toNat else 0) a.w =
          (if ov.toNat < a.w then a.w - ov.toNat else 0) := by
        split <;> omega
      refine ⟨_, rfl, rfl, by simp only [hmin], fun r c => ?_⟩
      simp only [hmin]
    · intro hh
      unfold blend_images_horizontally
      rw [if_neg hle]
      simp only [hdeg, if_pos]
      unfold hConcat takeCols
      simp only
      rw [if_neg hh]
  · intro hdeg
    constructor
    · intro hw
      unfold blend_images_vertically
      rw [if_neg hle]
      simp only [hdeg, if_pos]
      unfold vConcat takeRows
      simp only
      rw [if_pos hw]
      have hmin : min (if ov.toNat < a.h then a.h - ov.toNat else 0) a.h =
          (if ov.toNat < a.h then a.h - ov.toNat else 0) := by
        split <;> omega
      refine ⟨_, rfl, rfl, by simp only [hmin], fun r c => ?_⟩
      simp only [hmin]
    · intro hw
      unfold blend_images_vertically
      rw [if_neg hle]
      simp only [hdeg, if_pos]
      unfold vConcat takeRows
      simp only
      rw [if_neg hw]

/-- Witness for C3's amended theorem: two 1×1 rasters with overlap 50 degrade
to the second raster alone (the first is dropped), and a 1×1 / 2×1 pair fails
outright on the height mismatch. -/
theorem blend_degrade_truncated_concat_witness :
    (∃ out, blend_images_horizontally ⟨1, 1, fun _ _ => (10, 10, 10)⟩
        ⟨1, 1, fun _ _ => (20, 20, 20)⟩ 50 = some out ∧
      out.h = 1 ∧ out.w = 0 + 1 ∧
      ∀ r c, out.pix r c = if c < 0 then (10, 10, 10)
        else ((⟨1, 1, fun _ _ => (20, 20, 20)⟩ : Img).pix r (c - 0))) ∧
    blend_images_horizontally ⟨1, 1, fun _ _ => (10, 10, 10)⟩
        ⟨2, 1, fun _ _ => (20, 20, 20)⟩ 50 = none := by
  constructor
  · have h := ((blend_degrade_truncated_concat ⟨1, 1, fun _ _ => (10, 10, 10)⟩
      ⟨1, 1, fun _ _ => (20, 20, 20)⟩ 50 (by decide)).1 (by decide)).1 rfl
    simpa using h
  · exact ((blend_degrade_truncated_concat ⟨1, 1, fun _ _ => (10, 10, 10)⟩
      ⟨2, 1, fun _ _ => (20, 20, 20)⟩ 50 (by decide)).1 (by decide)).2 (by decide)

/-- C3 counterexample: with overlap 50 and two 1×1 rasters (both narrower
than the overlap), the blend returns a 1-pixel-wide raster — the first
raster's pixel is discarded — while the plain concatenation of the pair is 2
pixels wide.  The claimed degradation to loss-free concatenation is false. -/
theorem blend_degrade_discards_pixels :
    (blend_images_horizontally ⟨1, 1, fun _ _ => (10, 10, 10)⟩
        ⟨1, 1, fun _ _ => (20, 20, 20)⟩ 50).map Img.w = some 1 ∧
    (hConcat ⟨1, 1, fun _ _ => (10, 10, 10)⟩
        ⟨1, 1, fun _ _ => (20, 20, 20)⟩).map Img.w = some 2 := by
  constructor
  · rfl
  · rfl

/-! ### `lib/stitch_enhancement_utils.py` — crop to content with margin -/

/-- `cv2.boundingRect(cv2.findNonZero(mask))` as `(x, y, w, h)`: the tight
bounding rectangle of the mask's true pixels (`none` when the mask is empty,
i.e. `findNonZero` returns `None`). -/
def boundingRectOfMask (h w : Nat) (p : Nat → Nat → Bool) : Option (Nat × Nat × Nat × Nat) :=
  match leastSuch w (fun c => anyBelow h (fun r => p r c)),
        greatestSuch w (fun c => anyBelow h (fun r => p r c)),
        leastSuch h (fun r => anyBelow w (fun c => p r c)),
        greatestSuch h (fun r => anyBelow w (fun c => p r c)) with
  | some cmin, some cmax, some rmin, some rmax =>
    some (cmin, rmin, cmax + 1 - cmin, rmax + 1 - rmin)
  | _, _, _, _ => none

/-- The foreground mask of the margin cropper:
`cv2.inRange(gray, min_bg + 1, 255)`. -/
def cropMask (img : Img) (minBg : Nat) (r c : Nat) : Bool :=
  decide (minBg + 1 ≤ bgr2gray (img.pix r c) ∧ bgr2gray (img.pix r c) ≤ 255)

/-- Re-padding step of the margin cropper:
`np.full((h + 2m, w + 2m, 3), bg)` followed by the (fully in-bounds)
`paste_image_onto_canvas(out, inner, m, m)`; `padWithBg_eq_paste` below checks
this against the embedded paste. -/
def padWithBg (inner : Img) (bg : Pix) (m : Nat) : Img :=
  ⟨inner.h + 2 * m, inner.w + 2 * m, fun r c =>
    if m ≤ r ∧ r < m + inner.h ∧ m ≤ c ∧ c < m + inner.w then
      inner.pix (r - m) (c - m)
    else bg⟩

/-- Content-selection step of the margin cropper: when some pixel's grayscale
exceeds `min_bg + 5` (`np.any`), crop to the bounding rectangle of the
foreground mask (when the rectangle has positive extent); otherwise keep the
canvas. -/
def cropInner (img : Img) (minBg : Nat) : Img :=
  if anyBelow img.h (fun r => anyBelow img.w (fun c =>
      decide (minBg + 5 < bgr2gray (img.pix r c)))) then
    match boundingRectOfMask img.h img.w (cropMask img minBg) with
    | some (x, y, wd, ht) => if 0 < wd ∧ 0 < ht then subImg img y ht x wd else img
    | none => img
  else img

/-- `stitch_enhancement_utils.crop_canvas_to_content_with_margin`:
threshold away the background (using the minimum background channel), find
the non-background bounding box, crop to it, re-pad by the margin; the crop
step is skipped when no pixel exceeds `min_bg + 5`. -/
def crop_canvas_to_content_with_margin (img : Img) (bg : Pix) (m : Nat) : Img :=
  if img.size = 0 then img
  else
    let inner := cropInner img (min bg.1 (min bg.2.1 bg.2.2))
    if inner.h = 0 ∨ inner.w = 0 then inner
    else padWithBg inner bg m

/-! ### Bounding-box lemmas -/

theorem greatestSuch_isSome {n : Nat} {p : Nat → Bool} :
    (greatestSuch n p).isSome = true ↔ ∃ i < n, p i = true := by
  induction n with
  | zero => simp [greatestSuch]
  | succ n ih =>
    unfold greatestSuch
    by_cases hn : p n
    · simp only [hn, if_pos, Option.isSome_some, true_iff]
      exact ⟨n, by omega, hn⟩
    · simp only [hn, Bool.false_eq_true, not_false_iff, if_neg, ite_false]
      rw [ih]
      constructor
      · rintro ⟨i, hi, hp⟩
        exact ⟨i, by omega, hp⟩
      · rintro ⟨i, hi, hp⟩
        have : i ≠ n := by rintro rfl; exact hn hp
        exact ⟨i, by omega, hp⟩

theorem boundingRect_some_of_mem {h w : Nat} {p : Nat → Nat → Bool} {r c : Nat}
    (hr : r < h) (hc : c < w) (hp : p r c = true) :
    ∃ x y wd ht, boundingRectOfMask h w p = some (x, y, wd, ht) := by
  have hcol : ∃ i < w, anyBelow h (fun rr => p rr i) = true :=
    ⟨c, hc, anyBelow_iff.mpr ⟨r, hr, hp⟩⟩
  have hrow : ∃ i < h, anyBelow w (fun cc => p i cc) = true :=
    ⟨r, hr, anyBelow_iff.mpr ⟨c, hc, hp⟩⟩
  obtain ⟨cmin, e1⟩ := Option.isSome_iff_exists.mp (leastSuch_isSome.mpr hcol)
  obtain ⟨cmax, e2⟩ := Option.isSome_iff_exists.mp (greatestSuch_isSome.mpr hcol)
  obtain ⟨rmin, e3⟩ := Option.isSome_iff_exists.mp (leastSuch_isSome.mpr hrow)
  obtain ⟨rmax, e4⟩ := Option.isSome_iff_exists.mp (greatestSuch_isSome.mpr hrow)
  refine ⟨cmin, rmin, cmax + 1 - cmin, rmax + 1 - rmin, ?_⟩
  unfold boundingRectOfMask
  rw [e1, e2, e3, e4]

theorem boundingRect_char {h w : Nat} {p : Nat → Nat → Bool} {x y wd ht : Nat}
    (hbb : boundingRectOfMask h w p = some (x, y, wd, ht)) :
    0 < wd ∧ 0 < ht ∧ x + wd ≤ w ∧ y + ht ≤ h ∧
    (∀ r < h, ∀ c < w, p r c = true → x ≤ c ∧ c < x + wd ∧ y ≤ r ∧ r < y + ht) ∧
    (∃ r < h, p r x = true) ∧ (∃ r < h, p r (x + wd - 1) = true) ∧
    (∃ c < w, p y c = true) ∧ (∃ c < w, p (y + ht - 1) c = true) := by
  unfold boundingRectOfMask at hbb
  cases e1 : leastSuch w (fun c => anyBelow h (fun r => p r c)) with
  | none => rw [e1] at hbb; cases hbb
  | some cmin =>
  cases e2 : greatestSuch w (fun c => anyBelow h (fun r => p r c)) with
  | none => rw [e1, e2] at hbb; cases hbb
  | some cmax =>
  cases e3 : leastSuch h (fun r => anyBelow w (fun c => p r c)) with
  | none => rw [e1, e2, e3] at hbb; cases hbb
  | some rmin =>
  cases e4 : greatestSuch h (fun r => anyBelow w (fun c => p r c)) with
  | none => rw [e1, e2, e3, e4] at hbb; cases hbb
  | some rmax =>
  rw [e1, e2, e3, e4] at hbb
  injection hbb with hbb
  obtain ⟨hx, hy, hwd, hht⟩ : x = cmin ∧ y = rmin ∧ wd = cmax + 1 - cmin ∧
      ht = rmax + 1 - rmin := by
    have h1 := congrArg Prod.fst hbb
    have h2 := congrArg (fun t => t.2.1) hbb
    have h3 := congrArg (fun t => t.2.2.1) hbb
    have h4 := congrArg (fun t => t.2.2.2) hbb
    simp at h1 h2 h3 h4
    exact ⟨h1.symm, h2.symm, h3.symm, h4.symm⟩
  subst hx hy hwd hht
  obtain ⟨hc1, hc2, hc3⟩ := leastSuch_eq_some.mp e1
  obtain ⟨hC1, hC2, hC3⟩ := greatestSuch_eq_some.mp e2
  obtain ⟨hr1, hr2, hr3⟩ := leastSuch_eq_some.mp e3
  obtain ⟨hR1, hR2, hR3⟩ := greatestSuch_eq_some.mp e4
  have hcle : x ≤ cmax := by
    by_contra hcon
    have := hc3 cmax (by omega)
    rw [this] at hC2
    cases hC2
  have hrle : y ≤ rmax := by
    by_contra hcon
    have := hr3 rmax (by omega)
    rw [this] at hR2
    cases hR2
  refine ⟨by omega, by omega, by omega, by omega, ?_, ?_, ?_, ?_, ?_⟩
  · intro r hr c hc hp
    have hcolc : anyBelow h (fun rr => p rr c) = true := anyBelow_iff.mpr ⟨r, hr, hp⟩
    have hrowr : anyBelow w (fun cc => p r cc) = true := anyBelow_iff.mpr ⟨c, hc, hp⟩
    have hcge : x ≤ c := by
      by_contra hcon
      rw [hc3 c (by omega)] at hcolc
      cases hcolc
    have hcle2 : c ≤ cmax := by
      by_contra hcon
      rw [hC3 c (by omega) hc] at hcolc
      cases hcolc
    have hrge : y ≤ r := by
      by_contra hcon
      rw [hr3 r (by omega)] at hrowr
      cases hrowr
    have hrle2 : r ≤ rmax := by
      by_contra hcon
      rw [hR3 r (by omega) hr] at hrowr
      cases hrowr
    omega
  · obtain ⟨r, hr, hp⟩ := anyBelow_iff.mp hc2
    exact ⟨r, hr, hp⟩
  · obtain ⟨r, hr, hp⟩ := anyBelow_iff.mp hC2
    have heq : x + (cmax + 1 - x) - 1 = cmax := by omega
    rw [heq]
    exact ⟨r, hr, hp⟩
  · obtain ⟨c, hc, hp⟩ := anyBelow_iff.mp hr2
    exact ⟨c, hc, hp⟩
  · obtain ⟨c, hc, hp⟩ := anyBelow_iff.mp hR2
    have heq : y + (rmax + 1 - y) - 1 = rmax := by omega
    rw [heq]
    exact ⟨c, hc, hp⟩

theorem boundingRect_of_char {h w : Nat} {p : Nat → Nat → Bool} {x y wd ht : Nat}
    (hwd : 0 < wd) (hht : 0 < ht) (hxw : x + wd ≤ w) (hyh : y + ht ≤ h)
    (hin : ∀ r < h, ∀ c < w, p r c = true → x ≤ c ∧ c < x + wd ∧ y ≤ r ∧ r < y + ht)
    (hcl : ∃ r < h, p r x = true) (hcr : ∃ r < h, p r (x + wd - 1) = true)
    (hrt : ∃ c < w, p y c = true) (hrb : ∃ c < w, p (y + ht - 1) c = true) :
    boundingRectOfMask h w p = some (x, y, wd, ht) := by
  have e1 : leastSuch w (fun c => anyBelow h (fun r => p r c)) = some x := by
    apply leastSuch_eq_some.mpr
    refine ⟨by omega, ?_, ?_⟩
    · obtain ⟨r, hr, hp⟩ := hcl
      exact anyBelow_iff.mpr ⟨r, hr, hp⟩
    · intro j hj
      by_contra hcon
      obtain ⟨r, hr, hp⟩ := anyBelow_iff.mp (by simpa using hcon)
      have := hin r hr j (by omega) hp
      omega
  have e2 : greatestSuch w (fun c => anyBelow h (fun r => p r c)) = some (x + wd - 1) := by
    apply greatestSuch_eq_some.mpr
    refine ⟨by omega, ?_, ?_⟩
    · obtain ⟨r, hr, hp⟩ := hcr
      exact anyBelow_iff.mpr ⟨r, hr, hp⟩
    · intro j hj1 hj2
      by_contra hcon
      obtain ⟨r, hr, hp⟩ := anyBelow_iff.mp (by simpa using hcon)
      have := hin r hr j hj2 hp
      omega
  have e3 : leastSuch h (fun r => anyBelow w (fun c => p r c)) = some y := by
    apply leastSuch_eq_some.mpr
    refine ⟨by omega, ?_, ?_⟩
    · obtain ⟨c, hc, hp⟩ := hrt
      exact anyBelow_iff.mpr ⟨c, hc, hp⟩
    · intro j hj
      by_contra hcon
      obtain ⟨c, hc, hp⟩ := anyBelow_iff.mp (by simpa using hcon)
      have := hin j (by omega) c hc hp
      omega
  have e4 : greatestSuch h (fun r => anyBelow w (fun c => p r c)) = some (y + ht - 1) := by
    apply greatestSuch_eq_some.mpr
    refine ⟨by omega, ?_, ?_⟩
    · obtain ⟨c, hc, hp⟩ := hrb
      exact anyBelow_iff.mpr ⟨c, hc, hp⟩
    · intro j hj1 hj2
      by_contra hcon
      obtain ⟨c, hc, hp⟩ := anyBelow_iff.mp (by simpa using hcon)
      have := hin j hj2 c hc hp
      omega
  unfold boundingRectOfMask
  rw [e1, e2, e3, e4]
  show some (x, y, x + wd - 1 + 1 - x, y + ht - 1 + 1 - y) = some (x, y, wd, ht)
  have hw2 : x + wd - 1 + 1 - x = wd := by omega
  have hh2 : y + ht - 1 + 1 - y = ht := by omega
  rw [hw2, hh2]

/-! ### Margin-cropper theorems -/

/-- `padWithBg` agrees with `np.full` + `paste_image_onto_canvas` at `(m, m)`
(the paste is fully in bounds, so it writes the whole source). -/
theorem padWithBg_eq_paste (inner : Img) (bg : Pix) (m : Nat) (hsz : 0 < inner.size) :
    ∃ out, paste_image_onto_canvas (constImg (inner.h + 2 * m) (inner.w + 2 * m) bg)
        inner none (m : Int) (m : Int) = some out ∧
      ImgEq out (padWithBg inner bg m) := by
  obtain ⟨out, hout, hh, hw, hpix⟩ :=
    paste_spec (constImg (inner.h + 2 * m) (inner.w + 2 * m) bg) inner none
      (m : Int) (m : Int) hsz
  refine ⟨out, hout, ?_, ?_, ?_⟩
  · rw [hh]; rfl
  · rw [hw]; rfl
  · intro r hr c hc
    have hr2 : r < inner.h + 2 * m := by
      have : out.h = inner.h + 2 * m := by rw [hh]; rfl
      omega
    have hc2 : c < inner.w + 2 * m := by
      have : out.w = inner.w + 2 * m := by rw [hw]; rfl
      omega
    have hrc := hpix r hr2 c hc2
    unfold padWithBg
    simp only
    by_cases hreg : m ≤ r ∧ r < m + inner.h ∧ m ≤ c ∧ c < m + inner.w
    · rw [if_pos hreg]
      have hin : inPasteRegion inner (m : Int) (m : Int) r c := by
        unfold inPasteRegion
        omega
      rw [hrc.2 hin]
      unfold pasteWriteValue
      simp only
      have e1 : ((r : Int) - m).toNat = r - m := by omega
      have e2 : ((c : Int) - m).toNat = c - m := by omega
      rw [e1, e2]
    · rw [if_neg hreg]
      have hout2 : ¬ inPasteRegion inner (m : Int) (m : Int) r c := by
        unfold inPasteRegion
        omega
      rw [hrc.1 hout2]
      rfl

/-- Content case of the margin cropper: when some pixel's grayscale exceeds
`min_bg + 5` and the foreground mask has bounding rectangle
`(x, y, wd, ht)`, the output is that sub-rectangle re-padded by the margin. -/
theorem crop_eq_pad_of_bbox {img : Img} {v m x y wd ht : Nat}
    (hsz : 0 < img.size)
    (hcp : ∃ r < img.h, ∃ c < img.w, v + 5 < bgr2gray (img.pix r c))
    (hbb : boundingRectOfMask img.h img.w (cropMask img v) = some (x, y, wd, ht)) :
    crop_canvas_to_content_with_margin img (v, v, v) m =
      padWithBg (subImg img y ht x wd) (v, v, v) m := by
  obtain ⟨hwd, hht, hxw, hyh, hmem, hex1, hex2, hex3, hex4⟩ := boundingRect_char hbb
  have hminBg : min ((v, v, v) : Pix).1 (min ((v, v, v) : Pix).2.1 ((v, v, v) : Pix).2.2)
      = v := by simp
  have hcontent : anyBelow img.h (fun r => anyBelow img.w (fun c =>
      decide (v + 5 < bgr2gray (img.pix r c)))) = true := by
    rw [anyBelow_iff]
    obtain ⟨r0, hr0, c0, hc0, hv⟩ := hcp
    exact ⟨r0, hr0, anyBelow_iff.mpr ⟨c0, hc0, decide_eq_true hv⟩⟩
  have hinner : cropInner img v = subImg img y ht x wd := by
    unfold cropInner
    rw [hcontent]
    simp only [if_true]
    rw [hbb]
    simp only
    rw [if_pos ⟨hwd, hht⟩]
  unfold crop_canvas_to_content_with_margin
  rw [if_neg (by omega)]
  simp only [hminBg, hinner]
  rw [if_neg (by unfold subImg; simp only; omega)]

/-- Blank case of the margin cropper: when no pixel's grayscale exceeds
`min_bg + 5`, the crop step is skipped but the canvas is still re-padded. -/
theorem crop_blank_eq_pad (img : Img) (bg : Pix) (m : Nat)
    (hsz : 0 < img.size)
    (hblank : ∀ r < img.h, ∀ c < img.w,
      bgr2gray (img.pix r c) ≤ min bg.1 (min bg.2.1 bg.2.2) + 5) :
    crop_canvas_to_content_with_margin img bg m = padWithBg img bg m := by
  have hh : 0 < img.h ∧ 0 < img.w := by
    unfold Img.size at hsz
    constructor
    · rcases Nat.eq_zero_or_pos img.h with h | h
      · rw [h, Nat.zero_mul] at hsz; omega
      · exact h
    · rcases Nat.eq_zero_or_pos img.w with h | h
      · rw [h, Nat.mul_zero] at hsz; omega
      · exact h
  have hcontent : anyBelow img.h (fun r => anyBelow img.w (fun c =>
      decide (min bg.1 (min bg.2.1 bg.2.2) + 5 < bgr2gray (img.pix r c)))) = false := by
    rw [Bool.eq_false_iff]
    intro hcon
    obtain ⟨r0, hr0, hrow⟩ := anyBelow_iff.mp hcon
    obtain ⟨c0, hc0, hv⟩ := anyBelow_iff.mp hrow
    have := of_decide_eq_true hv
    have := hblank r0 hr0 c0 hc0
    omega
  have hinner : cropInner img (min bg.1 (min bg.2.1 bg.2.2)) = img := by
    unfold cropInner
    rw [hcontent]
    simp
  unfold crop_canvas_to_content_with_margin
  rw [if_neg (by omega)]
  simp only [hinner]
  rw [if_neg (by omega)]

theorem pix_congr (a : Img) {r1 r2 c1 c2 : Nat} (hr : r1 = r2) (hc : c1 = c2) :
    a.pix r1 c1 = a.pix r2 c2 := by rw [hr, hc]

theorem padWithBg_imgEq {a b : Img} (bg : Pix) (m : Nat) (hab : ImgEq a b) :
    ImgEq (padWithBg a bg m) (padWithBg b bg m) := by
  obtain ⟨hh, hw, hp⟩ := hab
  refine ⟨by unfold padWithBg; simp only; omega, by unfold padWithBg; simp only; omega,
    fun r hr c hc => ?_⟩
  unfold padWithBg
  simp only
  by_cases hreg : m ≤ r ∧ r < m + a.h ∧ m ≤ c ∧ c < m + a.w
  · rw [if_pos hreg, if_pos (by omega)]
    exact hp (r - m) (by omega) (c - m) (by omega)
  · rw [if_neg hreg, if_neg (by omega)]

/-- C4 (amended): on a canvas in which no pixel's grayscale exceeds the
background threshold `min_bg + 5` (a blank canvas), the crop step is skipped
but the canvas is still re-padded by the margin: the output has dimensions
`(h + 2·margin) × (w + 2·margin)` with the original canvas at offset
`(margin, margin)` and background elsewhere; it equals the original canvas
(same size, same pixels) only when the margin is 0. -/
theorem crop_blank_canvas_repads (img : Img) (bg : Pix) (m : Nat)
    (hsz : 0 < img.size)
    (hblank : ∀ r < img.h, ∀ c < img.w,
      bgr2gray (img.pix r c) ≤ min bg.1 (min bg.2.1 bg.2.2) + 5) :
    crop_canvas_to_content_with_margin img bg m = padWithBg img bg m ∧
    (crop_canvas_to_content_with_margin img bg m).h = img.h + 2 * m ∧
    (crop_canvas_to_content_with_margin img bg m).w = img.w + 2 * m ∧
    (m = 0 → ImgEq (crop_canvas_to_content_with_margin img bg m) img) := by
  have heq := crop_blank_eq_pad img bg m hsz hblank
  refine ⟨heq, by rw [heq]; rfl, by rw [heq]; rfl, fun hm => ?_⟩
  rw [heq, hm]
  refine ⟨by unfold padWithBg; simp only; omega, by unfold padWithBg; simp only; omega,
    fun r hr c hc => ?_⟩
  unfold padWithBg
  simp only
  have hrange : r < img.h ∧ c < img.w := by
    unfold padWithBg at hr hc
    simp only at hr hc
    omega
  rw [if_pos (by omega)]
  exact pix_congr img (by omega) (by omega)

/-- Witness for C4's amended theorem: a uniform 2×2 canvas of the background
colour (7,7,7) with margin 3 is re-padded to 8×8, and with margin 0 is
returned unchanged. -/
theorem crop_blank_canvas_repads_witness :
    (crop_canvas_to_content_with_margin ⟨2, 2, fun _ _ => (7, 7, 7)⟩ (7, 7, 7) 3).h = 2 + 2 * 3 ∧
    ImgEq (crop_canvas_to_content_with_margin ⟨2, 2, fun _ _ => (7, 7, 7)⟩ (7, 7, 7) 0)
      ⟨2, 2, fun _ _ => (7, 7, 7)⟩ :=
  ⟨(crop_blank_canvas_repads ⟨2, 2, fun _ _ => (7, 7, 7)⟩ (7, 7, 7) 3 (by decide)
      (by decide)).2.1,
    (crop_blank_canvas_repads ⟨2, 2, fun _ _ => (7, 7, 7)⟩ (7, 7, 7) 0 (by decide)
      (by decide)).2.2.2 rfl⟩

/-- C4 counterexample: a blank (all-background) 1×1 black canvas with margin 1
comes back 3×3, not unchanged — the crop is a no-op but the re-padding is
not. -/
theorem crop_blank_canvas_not_unchanged :
    (crop_canvas_to_content_with_margin ⟨1, 1, fun _ _ => (0, 0, 0)⟩ (0, 0, 0) 1).h = 3 ∧
    (⟨1, 1, fun _ _ => (0, 0, 0)⟩ : Img).h = 1 := by
  constructor
  · decide
  · rfl

set_option maxHeartbeats 1000000 in
/-- C8 (amended): the margin cropper applied twice with the same margin
equals applying it once PROVIDED the background colour has equal channels
(so its grayscale equals its minimum channel), the canvas is 8-bit valid,
and the first application actually detected content (some pixel's grayscale
exceeds `min_bg + 5`).  Without content the padding grows on every
application, and for backgrounds whose grayscale exceeds their minimum
channel the padding ring itself is re-detected as content. -/
theorem crop_margin_idempotent (img : Img) (v m : Nat)
    (h8 : img.Valid8)
    (hcp : ∃ r < img.h, ∃ c < img.w, v + 5 < bgr2gray (img.pix r c)) :
    ImgEq
      (crop_canvas_to_content_with_margin
        (crop_canvas_to_content_with_margin img (v, v, v) m) (v, v, v) m)
      (crop_canvas_to_content_with_margin img (v, v, v) m) := by
  obtain ⟨r0, hr0, c0, hc0, hg0⟩ := hcp
  have hsz : 0 < img.size := by
    unfold Img.size
    exact Nat.mul_pos (by omega) (by omega)
  have hmask0 : cropMask img v r0 c0 = true := by
    unfold cropMask
    apply decide_eq_true
    have h255 := bgr2gray_le_255 (h8 r0 hr0 c0 hc0).1 (h8 r0 hr0 c0 hc0).2.1
      (h8 r0 hr0 c0 hc0).2.2
    omega
  obtain ⟨x, y, wd, ht, hbb1⟩ := boundingRect_some_of_mem hr0 hc0 hmask0
  obtain ⟨hwd, hht, hxw, hyh, hmem, hex1, hex2, hex3, hex4⟩ := boundingRect_char hbb1
  have hcrop1 := crop_eq_pad_of_bbox hsz ⟨r0, hr0, c0, hc0, hg0⟩ hbb1 (m := m)
  set inner1 : Img := subImg img y ht x wd with hinner1
  set out1 : Img := padWithBg inner1 (v, v, v) m with hout1
  rw [hcrop1]
  -- out1 facts
  have hout1h : out1.h = ht + 2 * m := rfl
  have hout1w : out1.w = wd + 2 * m := rfl
  have hout1pix : ∀ r c, out1.pix r c =
      if m ≤ r ∧ r < m + ht ∧ m ≤ c ∧ c < m + wd then
        img.pix (y + (r - m)) (x + (c - m))
      else (v, v, v) := by
    intro r c
    rfl
  -- the second pass's mask, characterized against the first pass's mask
  have hmask2 : ∀ r c, cropMask out1 v r c =
      ((decide (m ≤ r ∧ r < m + ht ∧ m ≤ c ∧ c < m + wd)) &&
        cropMask img v (y + (r - m)) (x + (c - m))) := by
    intro r c
    by_cases hreg : m ≤ r ∧ r < m + ht ∧ m ≤ c ∧ c < m + wd
    · rw [decide_eq_true hreg, Bool.true_and]
      unfold cropMask
      rw [hout1pix r c, if_pos hreg]
    · rw [decide_eq_false hreg, Bool.false_and]
      unfold cropMask
      rw [hout1pix r c, if_neg hreg]
      apply decide_eq_false
      rw [bgr2gray_const]
      omega
  -- content is still present in out1
  have hmem0 := hmem r0 hr0 c0 hc0 hmask0
  have hcp2 : ∃ r < out1.h, ∃ c < out1.w, v + 5 < bgr2gray (out1.pix r c) := by
    refine ⟨m + (r0 - y), by omega, m + (c0 - x), by omega, ?_⟩
    rw [hout1pix, if_pos (by omega)]
    have : img.pix (y + (m + (r0 - y) - m)) (x + (m + (c0 - x) - m)) = img.pix r0 c0 :=
      pix_congr img (by omega) (by omega)
    rw [this]
    exact hg0
  -- the second pass's bounding rectangle
  have hbb2 : boundingRectOfMask out1.h out1.w (cropMask out1 v) =
      some (m, m, wd, ht) := by
    apply boundingRect_of_char hwd hht (by omega) (by omega)
    · intro r hr c hc hp
      rw [hmask2, Bool.and_eq_true] at hp
      obtain ⟨hreg, -⟩ := hp
      have := of_decide_eq_true hreg
      omega
    · obtain ⟨r1, hr1, hp1⟩ := hex1
      have hb := hmem r1 hr1 x (by omega) hp1
      refine ⟨m + (r1 - y), by omega, ?_⟩
      rw [hmask2, Bool.and_eq_true]
      refine ⟨decide_eq_true (by omega), ?_⟩
      have e1 : y + (m + (r1 - y) - m) = r1 := by omega
      have e2 : x + (m - m) = x := by omega
      rw [e1, e2]
      exact hp1
    · obtain ⟨r1, hr1, hp1⟩ := hex2
      have hb := hmem r1 hr1 (x + wd - 1) (by omega) hp1
      refine ⟨m + (r1 - y), by omega, ?_⟩
      rw [hmask2, Bool.and_eq_true]
      refine ⟨decide_eq_true (by omega), ?_⟩
      have e1 : y + (m + (r1 - y) - m) = r1 := by omega
      have e2 : x + (m + wd - 1 - m) = x + wd - 1 := by omega
      rw [e1, e2]
      exact hp1
    · obtain ⟨c1, hc1, hp1⟩ := hex3
      have hb := hmem y (by omega) c1 hc1 hp1
      refine ⟨m + (c1 - x), by omega, ?_⟩
      rw [hmask2, Bool.and_eq_true]
      refine ⟨decide_eq_true (by omega), ?_⟩
      have e1 : y + (m - m) = y := by omega
      have e2 : x + (m + (c1 - x) - m) = c1 := by omega
      rw [e1, e2]
      exact hp1
    · obtain ⟨c1, hc1, hp1⟩ := hex4
      have hb := hmem (y + ht - 1) (by omega) c1 hc1 hp1
      refine ⟨m + (c1 - x), by omega, ?_⟩
      rw [hmask2, Bool.and_eq_true]
      refine ⟨decide_eq_true (by omega), ?_⟩
      have e1 : y + (m + ht - 1 - m) = y + ht - 1 := by omega
      have e2 : x + (m + (c1 - x) - m) = c1 := by omega
      rw [e1, e2]
      exact hp1
  have hsz2 : 0 < out1.size := by
    unfold Img.size
    rw [hout1h, hout1w]
    exact Nat.mul_pos (by omega) (by omega)
  have hcrop2 := crop_eq_pad_of_bbox hsz2 hcp2 hbb2 (m := m)
  rw [hcrop2]
  -- the re-cropped content equals the first pass's content
  have hinner2 : ImgEq (subImg out1 m ht m wd) inner1 := by
    refine ⟨rfl, rfl, fun r hr c hc => ?_⟩
    have hr2 : r < ht := hr
    have hc2 : c < wd := hc
    show out1.pix (m + r) (m + c) = inner1.pix r c
    rw [hout1pix, if_pos (by omega)]
    show img.pix (y + (m + r - m)) (x + (m + c - m)) = img.pix (y + r) (x + c)
    exact pix_congr img (by omega) (by omega)
  exact padWithBg_imgEq (v, v, v) m hinner2

/-- Witness for C8's amended theorem: a 3×3 black canvas with one white
center pixel and margin 2 — cropping twice equals cropping once. -/
theorem crop_margin_idempotent_witness :
    ImgEq
      (crop_canvas_to_content_with_margin
        (crop_canvas_to_content_with_margin
          ⟨3, 3, fun r c => if r = 1 ∧ c = 1 then (255, 255, 255) else (0, 0, 0)⟩
          (0, 0, 0) 2) (0, 0, 0) 2)
      (crop_canvas_to_content_with_margin
        ⟨3, 3, fun r c => if r = 1 ∧ c = 1 then (255, 255, 255) else (0, 0, 0)⟩
        (0, 0, 0) 2) :=
  crop_margin_idempotent
    ⟨3, 3, fun r c => if r = 1 ∧ c = 1 then (255, 255, 255) else (0, 0, 0)⟩ 0 2
    (by decide) (by decide)

/-- C8 counterexample: on a blank 1×1 black canvas with margin 1, one
application of the margin cropper yields a 3×3 canvas and a second
application yields 5×5 — applying twice is NOT the same as applying once. -/
theorem crop_margin_not_idempotent :
    (crop_canvas_to_content_with_margin
      (crop_canvas_to_content_with_margin ⟨1, 1, fun _ _ => (0, 0, 0)⟩ (0, 0, 0) 1)
      (0, 0, 0) 1).h = 5 ∧
    (crop_canvas_to_content_with_margin ⟨1, 1, fun _ _ => (0, 0, 0)⟩ (0, 0, 0) 1).h = 3 := by
  constructor
  · decide
  · decide

/-- C10: for every canvas, non-empty source raster and integer top-left
coordinates — including negative ones and placements partly or wholly outside
the canvas — the paste never fails (the internal resize fallback is dead
code), preserves the canvas dimensions, writes only inside the intersection
of the source's target rectangle with the canvas (copying the matching source
pixel when the source has no alpha plane), and leaves every canvas pixel
outside that intersection unchanged. -/
theorem paste_image_onto_canvas_frame (canvas src : Img)
    (alpha : Option (Nat → Nat → Nat)) (x y : Int) (hsrc : 0 < src.size) :
    paste_image_onto_canvas canvas src alpha x y ≠ none ∧
    ∃ out, paste_image_onto_canvas canvas src alpha x y = some out ∧
      out.h = canvas.h ∧ out.w = canvas.w ∧
      (∀ r < canvas.h, ∀ c < canvas.w,
        (¬ inPasteRegion src x y r c → out.pix r c = canvas.pix r c) ∧
        (inPasteRegion src x y r c → alpha = none →
          out.pix r c = src.pix ((r : Int) - y).toNat ((c : Int) - x).toNat)) := by
  obtain ⟨out, hout, hh, hw, hpix⟩ := paste_spec canvas src alpha x y hsrc
  refine ⟨paste_never_resizes canvas src alpha x y, out, hout, hh, hw,
    fun r hr c hc => ⟨(hpix r hr c hc).1, fun hin halpha => ?_⟩⟩
  rw [(hpix r hr c hc).2 hin, halpha]
  rfl

/-- Witness for C10: a 2×2 source pasted at (1, -1) onto a 2×2 canvas —
partially outside — succeeds, keeps the canvas 2×2, copies the overlapping
source pixel and leaves the rest untouched. -/
theorem paste_image_onto_canvas_frame_witness :
    paste_image_onto_canvas ⟨2, 2, fun _ _ => (1, 1, 1)⟩
        ⟨2, 2, fun _ _ => (9, 9, 9)⟩ none 1 (-1) ≠ none ∧
    ∃ out, paste_image_onto_canvas ⟨2, 2, fun _ _ => (1, 1, 1)⟩
        ⟨2, 2, fun _ _ => (9, 9, 9)⟩ none 1 (-1) = some out ∧
      out.h = 2 ∧ out.w = 2 ∧
      (∀ r < 2, ∀ c < 2,
        (¬ inPasteRegion ⟨2, 2, fun _ _ => (9, 9, 9)⟩ 1 (-1) r c →
          out.pix r c = (1, 1, 1)) ∧
        (inPasteRegion ⟨2, 2, fun _ _ => (9, 9, 9)⟩ 1 (-1) r c → (none : Option (Nat → Nat → Nat)) = none →
          out.pix r c = (9, 9, 9))) :=
  paste_image_onto_canvas_frame ⟨2, 2, fun _ _ => (1, 1, 1)⟩
    ⟨2, 2, fun _ _ => (9, 9, 9)⟩ none 1 (-1) (by decide)

/-! ### `object_extractor.py` — feathered object extraction

Steps 3–6 of `extract_and_save_object` are embedded from the filled contour
mask onward (`cv2.findContours` / `cv2.drawContours` are the external contour
machinery producing the mask).  `cv2.GaussianBlur` is the external imaging
collaborator; it preserves the raster's shape, so the feathered alpha plane
(`feathered_mask_raw / 255`) enters as a function parameter `alpha` over the
same coordinates. -/

/-- `object_extractor.get_mask_bounding_box`: `None` when the mask has no
true pixel, else `(xmin, ymin, xmax + 1, ymax + 1)` from the first/last
nonzero rows and columns. -/
def get_mask_bounding_box (h w : Nat) (mask : Nat → Nat → Bool) :
    Option (Nat × Nat × Nat × Nat) :=
  match leastSuch h (fun r => anyBelow w (fun c => mask r c)),
        greatestSuch h (fun r => anyBelow w (fun c => mask r c)),
        leastSuch w (fun c => anyBelow h (fun r => mask r c)),
        greatestSuch w (fun c => anyBelow h (fun r => mask r c)) with
  | some ymin, some ymax, some xmin, some xmax => some (xmin, ymin, xmax + 1, ymax + 1)
  | _, _, _, _ => none

/-- Steps 4–6 of `extract_and_save_object`: alpha-composite the original
raster over the output background with the feathered alpha, then trim to the
bounding box of the UNFEATHERED mask (untrimmed when the bounding box is
`None`). -/
def extract_object_raster (img : Img) (mask : Nat → Nat → Bool) (outBg : Pix)
    (alpha : Nat → Nat → ℚ) : Img :=
  let blended : Img := ⟨img.h, img.w, fun r c =>
    (gradBlendChannel outBg.1 (img.pix r c).1 (alpha r c),
     gradBlendChannel outBg.2.1 (img.pix r c).2.1 (alpha r c),
     gradBlendChannel outBg.2.2 (img.pix r c).2.2 (alpha r c))⟩
  match get_mask_bounding_box img.h img.w mask with
  | none => blended
  | some (xmin, ymin, xmax1, ymax1) =>
    subImg blended ymin (ymax1 - ymin) xmin (xmax1 - xmin)

theorem get_mask_bounding_box_char {h w : Nat} {mask : Nat → Nat → Bool}
    {xmin ymin xmax1 ymax1 : Nat}
    (hbb : get_mask_bounding_box h w mask = some (xmin, ymin, xmax1, ymax1)) :
    xmin < xmax1 ∧ ymin < ymax1 ∧ xmax1 ≤ w ∧ ymax1 ≤ h ∧
    (∀ r < h, ∀ c < w, mask r c = true →
      xmin ≤ c ∧ c < xmax1 ∧ ymin ≤ r ∧ r < ymax1) ∧
    (∃ r < h, mask r xmin = true) ∧ (∃ r < h, mask r (xmax1 - 1) = true) ∧
    (∃ c < w, mask ymin c = true) ∧ (∃ c < w, mask (ymax1 - 1) c = true) := by
  unfold get_mask_bounding_box at hbb
  cases e1 : leastSuch h (fun r => anyBelow w (fun c => mask r c)) with
  | none => rw [e1] at hbb; cases hbb
  | some rmin =>
  cases e2 : greatestSuch h (fun r => anyBelow w (fun c => mask r c)) with
  | none => rw [e1, e2] at hbb; cases hbb
  | some rmax =>
  cases e3 : leastSuch w (fun c => anyBelow h (fun r => mask r c)) with
  | none => rw [e1, e2, e3] at hbb; cases hbb
  | some cmin =>
  cases e4 : greatestSuch w (fun c => anyBelow h (fun r => mask r c)) with
  | none => rw [e1, e2, e3, e4] at hbb; cases hbb
  | some cmax =>
  rw [e1, e2, e3, e4] at hbb
  injection hbb with hbb
  obtain ⟨hx, hy, hX, hY⟩ : xmin = cmin ∧ ymin = rmin ∧ xmax1 = cmax + 1 ∧
      ymax1 = rmax + 1 := by
    have h1 := congrArg Prod.fst hbb
    have h2 := congrArg (fun t => t.2.1) hbb
    have h3 := congrArg (fun t => t.2.2.1) hbb
    have h4 := congrArg (fun t => t.2.2.2) hbb
    simp at h1 h2 h3 h4
    exact ⟨h1.symm, h2.symm, h3.symm, h4.symm⟩
  subst hx hy hX hY
  obtain ⟨hr1, hr2, hr3⟩ := leastSuch_eq_some.mp e1
  obtain ⟨hR1, hR2, hR3⟩ := greatestSuch_eq_some.mp e2
  obtain ⟨hc1, hc2, hc3⟩ := leastSuch_eq_some.mp e3
  obtain ⟨hC1, hC2, hC3⟩ := greatestSuch_eq_some.mp e4
  have hcle : xmin ≤ cmax := by
    by_contra hcon
    have := hc3 cmax (by omega)
    rw [this] at hC2
    cases hC2
  have hrle : ymin ≤ rmax := by
    by_contra hcon
    have := hr3 rmax (by omega)
    rw [this] at hR2
    cases hR2
  refine ⟨by omega, by omega, by omega, by omega, ?_, ?_, ?_, ?_, ?_⟩
  · intro r hr c hc hp
    have hcolc : anyBelow h (fun rr => mask rr c) = true := anyBelow_iff.mpr ⟨r, hr, hp⟩
    have hrowr : anyBelow w (fun cc => mask r cc) = true := anyBelow_iff.mpr ⟨c, hc, hp⟩
    have h1 : xmin ≤ c := by
      by_contra hcon
      rw [hc3 c (by omega)] at hcolc
      cases hcolc
    have h2 : c ≤ cmax := by
      by_contra hcon
      rw [hC3 c (by omega) hc] at hcolc
      cases hcolc
    have h3 : ymin ≤ r := by
      by_contra hcon
      rw [hr3 r (by omega)] at hrowr
      cases hrowr
    have h4 : r ≤ rmax := by
      by_contra hcon
      rw [hR3 r (by omega) hr] at hrowr
      cases hrowr
    omega
  · obtain ⟨r, hr, hp⟩ := anyBelow_iff.mp hc2
    exact ⟨r, hr, hp⟩
  · obtain ⟨r, hr, hp⟩ := anyBelow_iff.mp hC2
    have heq : cmax + 1 - 1 = cmax := by omega
    rw [heq]
    exact ⟨r, hr, hp⟩
  · obtain ⟨c, hc, hp⟩ := anyBelow_iff.mp hr2
    exact ⟨c, hc, hp⟩
  · obtain ⟨c, hc, hp⟩ := anyBelow_iff.mp hR2
    have heq : rmax + 1 - 1 = rmax := by omega
    rw [heq]
    exact ⟨c, hc, hp⟩

/-- C7: when a contour was successfully rasterized (the mask has a true
pixel), the extractor's output is the alpha-composite cropped to the TIGHT
bounding box of the unfeathered mask: its dimensions equal the box's, every
mask pixel lies inside the box, the box's edges touch mask pixels, and
neither the dimensions nor the crop offsets depend on the feathered alpha
(hence not on the feather radius, radius 0 included). -/
theorem extract_object_dims_from_unfeathered_mask (img : Img)
    (mask : Nat → Nat → Bool)
    (hne : ∃ r < img.h, ∃ c < img.w, mask r c = true) :
    ∃ xmin ymin xmax1 ymax1,
      get_mask_bounding_box img.h img.w mask = some (xmin, ymin, xmax1, ymax1) ∧
      xmin < xmax1 ∧ ymin < ymax1 ∧ xmax1 ≤ img.w ∧ ymax1 ≤ img.h ∧
      (∀ r < img.h, ∀ c < img.w, mask r c = true →
        xmin ≤ c ∧ c < xmax1 ∧ ymin ≤ r ∧ r < ymax1) ∧
      (∃ r < img.h, mask r xmin = true) ∧ (∃ r < img.h, mask r (xmax1 - 1) = true) ∧
      (∃ c < img.w, mask ymin c = true) ∧ (∃ c < img.w, mask (ymax1 - 1) c = true) ∧
      (∀ outBg alpha,
        (extract_object_raster img mask outBg alpha).h = ymax1 - ymin ∧
        (extract_object_raster img mask outBg alpha).w = xmax1 - xmin ∧
        ∀ r c, (extract_object_raster img mask outBg alpha).pix r c =
          (gradBlendChannel outBg.1 (img.pix (ymin + r) (xmin + c)).1
            (alpha (ymin + r) (xmin + c)),
           gradBlendChannel outBg.2.1 (img.pix (ymin + r) (xmin + c)).2.1
            (alpha (ymin + r) (xmin + c)),
           gradBlendChannel outBg.2.2 (img.pix (ymin + r) (xmin + c)).2.2
            (alpha (ymin + r) (xmin + c)))) := by
  obtain ⟨r0, hr0, c0, hc0, hp0⟩ := hne
  have hrow : ∃ i < img.h, anyBelow img.w (fun c => mask i c) = true :=
    ⟨r0, hr0, anyBelow_iff.mpr ⟨c0, hc0, hp0⟩⟩
  have hcol : ∃ i < img.w, anyBelow img.h (fun r => mask r i) = true :=
    ⟨c0, hc0, anyBelow_iff.mpr ⟨r0, hr0, hp0⟩⟩
  obtain ⟨rmin, e1⟩ := Option.isSome_iff_exists.mp (leastSuch_isSome.mpr hrow)
  obtain ⟨rmax, e2⟩ := Option.isSome_iff_exists.mp (greatestSuch_isSome.mpr hrow)
  obtain ⟨cmin, e3⟩ := Option.isSome_iff_exists.mp (leastSuch_isSome.mpr hcol)
  obtain ⟨cmax, e4⟩ := Option.isSome_iff_exists.mp (greatestSuch_isSome.mpr hcol)
  have hbb : get_mask_bounding_box img.h img.w mask =
      some (cmin, rmin, cmax + 1, rmax + 1) := by
    unfold get_mask_bounding_box
    rw [e1, e2, e3, e4]
  obtain ⟨h1, h2, h3, h4, h5, h6, h7, h8, h9⟩ := get_mask_bounding_box_char hbb
  refine ⟨cmin, rmin, cmax + 1, rmax + 1, hbb, h1, h2, h3, h4, h5, h6, h7, h8, h9,
    fun outBg alpha => ?_⟩
  unfold extract_object_raster
  rw [hbb]
  exact ⟨rfl, rfl, fun r c => rfl⟩

/-- Witness for C7: a 3×3 raster with a single mask pixel at (1, 1) — the
output is 1×1 whatever the alpha plane. -/
theorem extract_object_dims_from_unfeathered_mask_witness :
    ∃ xmin ymin xmax1 ymax1,
      get_mask_bounding_box 3 3 (fun r c => decide (r = 1 ∧ c = 1)) =
        some (xmin, ymin, xmax1, ymax1) ∧
      (extract_object_raster ⟨3, 3, fun _ _ => (5, 5, 5)⟩
        (fun r c => decide (r = 1 ∧ c = 1)) (0, 0, 0) (fun _ _ => 1)).h =
        ymax1 - ymin ∧
      (extract_object_raster ⟨3, 3, fun _ _ => (5, 5, 5)⟩
        (fun r c => decide (r = 1 ∧ c = 1)) (0, 0, 0) (fun _ _ => 0)).w =
        xmax1 - xmin := by
  obtain ⟨xmin, ymin, xmax1, ymax1, hbb, -, -, -, -, -, -, -, -, -, hdims⟩ :=
    extract_object_dims_from_unfeathered_mask ⟨3, 3, fun _ _ => (5, 5, 5)⟩
      (fun r c => decide (r = 1 ∧ c = 1)) ⟨1, by decide, 1, by decide, by decide⟩
  exact ⟨xmin, ymin, xmax1, ymax1, hbb, (hdims (0, 0, 0) (fun _ _ => 1)).1,
    (hdims (0, 0, 0) (fun _ _ => 0)).2.1⟩

/-! ### View dictionaries, `image_utils.resize_image_maintain_aspect` and
`lib/stitch_processing_utils.resize_tablet_views_relative_to_obverse`

The "images" dictionary is modelled on the canonical slots that the resize
and layout stages read and write (obverse/reverse/top/bottom/left/right/
ruler); other entries are passed through untouched by both stages.  Both
stages are modelled as functions returning the POST-CALL STATE of the
dictionary argument: the sources assign into the received dictionary and
return it. -/

/-- A view slot's payload: one raster or an ordered sequence of rasters. -/
inductive ImgData
  | single (img : Img)
  | seq (imgs : List Img)

/-- The canonical slots of the images dictionary. -/
structure ViewDict where
  obverse : Option ImgData
  reverse : Option ImgData
  top : Option ImgData
  bottom : Option ImgData
  left : Option ImgData
  right : Option ImgData
  ruler : Option ImgData

/-- Python's banker's rounding `round(a / b)` for naturals, `b > 0`. -/
def pyRoundDiv (a b : Nat) : Nat :=
  let q := a / b
  let r := a % b
  if 2 * r < b then q
  else if b < 2 * r then q + 1
  else if q % 2 = 0 then q else q + 1

/-- Modelled from the spec: the external imaging library's resampling (§6,
"must ... support nearest/area/cubic resampling").  Only the output
dimensions are relied upon; pixel values are modelled as nearest-neighbour
samples. -/
def cv2Resize (img : Img) (newW newH : Nat) : Img :=
  ⟨newH, newW, fun r c => img.pix (r * img.h / newH) (c * img.w / newW)⟩

/-- `image_utils.resize_image_maintain_aspect`.  The float comparison
`abs(scale_factor - 1.0) < 1e-3` with `scale_factor = target / dim` is the
cross-multiplied `1000 * |target - dim| < dim`; `int(round(dim * scale))`
is banker's rounding of the exact rational. -/
def resize_image_maintain_aspect (img : Img) (target : Nat) (axis : Nat) : Option Img :=
  if img.size = 0 then none
  else if img.h = 0 ∨ img.w = 0 then none
  else if axis ≠ 0 ∧ axis ≠ 1 then some img
  else
    let dim := match axis with
      | 0 => img.h
      | _ => img.w
    if dim = target ∨ 1000 * (max target dim - min target dim) < dim then some img
    else
      let nw := pyRoundDiv (img.w * target) dim
      let nh := pyRoundDiv (img.h * target) dim
      if nw = 0 ∨ nh = 0 then none
      else some (cv2Resize img nw nh)

/-- One slot write of `resize_tablet_views_relative_to_obverse`: a valid
single raster is replaced by its resize result (possibly `None`), anything
else present is overwritten with `None`, an absent slot stays absent. -/
def resizeSlot (slot : Option ImgData) (target : Nat) (axis : Nat) : Option ImgData :=
  match slot with
  | some (.single img) =>
    if 0 < img.size then (resize_image_maintain_aspect img target axis).map ImgData.single
    else none
  | some (.seq _) => none
  | none => none

/-- `stitch_processing_utils.resize_tablet_views_relative_to_obverse`:
raises unless "obverse" is a valid raster, then writes the resized secondary
views back into the received dictionary and returns it (the returned value
is the argument's post-call state). -/
def resize_tablet_views_relative_to_obverse (d : ViewDict) : Except String ViewDict :=
  match d.obverse with
  | some (.single ob) =>
    if 0 < ob.size then
      .ok { d with
        left := resizeSlot d.left ob.h 0,
        right := resizeSlot d.right ob.h 0,
        top := resizeSlot d.top ob.w 1,
        bottom := resizeSlot d.bottom ob.w 1,
        reverse := resizeSlot d.reverse ob.w 1 }
    else .error "Obverse image is not a valid NumPy array or is empty for resizing."
  | _ => .error "Obverse image is not a valid NumPy array or is empty for resizing."

/-- The height recorded in a slot, when it holds a single raster. -/
def slotHeight : Option ImgData → Option Nat
  | some (.single i) => some i.h
  | some (.seq _) => none
  | none => none

/-! ### Resize-stage theorems -/

theorem pyRoundDiv_mul_self (a b : Nat) (ha : 0 < a) : pyRoundDiv (a * b) a = b := by
  unfold pyRoundDiv
  rw [Nat.mul_div_cancel_left b ha, Nat.mul_mod_right]
  simp [ha]

/-- C9 (amended): the resize stage returns the post-call state of the
dictionary it received: the secondary view slots are overwritten with their
resize results while the obverse and ruler entries are untouched, and when a
secondary view's matching dimension differs from the obverse reference by at
least the 1e-3 relative tolerance, the written slot genuinely differs from
the received one (the stage mutates the mapping it was given). -/
theorem resize_stage_writes_back (d : ViewDict) (ob l : Img)
    (hob : d.obverse = some (.single ob)) (hsob : 0 < ob.size)
    (hleft : d.left = some (.single l)) (hsl : 0 < l.size)
    (htol : l.h ≤ 1000 * (max ob.h l.h - min ob.h l.h)) (hne : l.h ≠ ob.h) :
    ∃ d2, resize_tablet_views_relative_to_obverse d = .ok d2 ∧
      d2.obverse = d.obverse ∧ d2.ruler = d.ruler ∧
      d2.left = resizeSlot d.left ob.h 0 ∧
      d2.right = resizeSlot d.right ob.h 0 ∧
      d2.top = resizeSlot d.top ob.w 1 ∧
      d2.bottom = resizeSlot d.bottom ob.w 1 ∧
      d2.reverse = resizeSlot d.reverse ob.w 1 ∧
      slotHeight d2.left ≠ slotHeight d.left := by
  have hobh : 0 < ob.h := by
    unfold Img.size at hsob
    rcases Nat.eq_zero_or_pos ob.h with h | h
    · rw [h, Nat.zero_mul] at hsob; omega
    · exact h
  have hlh : 0 < l.h := by
    unfold Img.size at hsl
    rcases Nat.eq_zero_or_pos l.h with h | h
    · rw [h, Nat.zero_mul] at hsl; omega
    · exact h
  have hlw : 0 < l.w := by
    unfold Img.size at hsl
    rcases Nat.eq_zero_or_pos l.w with h | h
    · rw [h, Nat.mul_zero] at hsl; omega
    · exact h
  unfold resize_tablet_views_relative_to_obverse
  rw [hob]
  simp only
  rw [if_pos hsob]
  refine ⟨_, rfl, rfl, rfl, rfl, rfl, rfl, rfl, rfl, ?_⟩
  simp only
  rw [hleft]
  unfold resizeSlot
  simp only
  rw [if_pos hsl]
  unfold resize_image_maintain_aspect
  rw [if_neg (by omega), if_neg (by omega), if_neg (by simp)]
  simp only
  rw [if_neg (by
    push_neg
    exact ⟨fun h => absurd h hne, by omega⟩)]
  rw [pyRoundDiv_mul_self l.h ob.h hlh]
  by_cases hnw : pyRoundDiv (l.w * ob.h) l.h = 0
  · rw [if_pos (Or.inl hnw)]
    unfold slotHeight
    simp
  · rw [if_neg (by push_neg; exact ⟨hnw, by omega⟩)]
    unfold slotHeight cv2Resize
    simp only [Option.map_some']
    intro hcon
    injection hcon with hcon
    exact hne hcon.symm

/-- Witness for C9's amended theorem: obverse 4×4 and left 8×3 — resizing
replaces the left raster (8×3 becomes 4×2), so the received mapping is
modified. -/
theorem resize_stage_writes_back_witness :
    ∃ d2, resize_tablet_views_relative_to_obverse
        ⟨some (.single ⟨4, 4, fun _ _ => (5, 5, 5)⟩), none, none, none,
          some (.single ⟨8, 3, fun _ _ => (6, 6, 6)⟩), none, none⟩ = .ok d2 ∧
      d2.obverse = some (.single ⟨4, 4, fun _ _ => (5, 5, 5)⟩) ∧
      d2.ruler = none ∧
      d2.left = resizeSlot (some (.single ⟨8, 3, fun _ _ => (6, 6, 6)⟩)) 4 0 ∧
      d2.right = resizeSlot none 4 0 ∧
      d2.top = resizeSlot none 4 1 ∧
      d2.bottom = resizeSlot none 4 1 ∧
      d2.reverse = resizeSlot none 4 1 ∧
      slotHeight d2.left ≠ slotHeight (some (.single ⟨8, 3, fun _ _ => (6, 6, 6)⟩)) := by
  have h := resize_stage_writes_back
    ⟨some (.single ⟨4, 4, fun _ _ => (5, 5, 5)⟩), none, none, none,
      some (.single ⟨8, 3, fun _ _ => (6, 6, 6)⟩), none, none⟩
    ⟨4, 4, fun _ _ => (5, 5, 5)⟩ ⟨8, 3, fun _ _ => (6, 6, 6)⟩
    rfl (by decide) rfl (by decide) (by decide) (by decide)
  exact h

/-- C9 counterexample: the resize stage returns the received dictionary with
its "left" slot overwritten — the post-call left view is 4 pixels high where
the caller's was 8, so the stage does NOT leave the mapping it receives
unmodified. -/
theorem resize_mutates_received_mapping :
    ((resize_tablet_views_relative_to_obverse
        ⟨some (.single ⟨4, 4, fun _ _ => (5, 5, 5)⟩), none, none, none,
          some (.single ⟨8, 3, fun _ _ => (6, 6, 6)⟩), none, none⟩).toOption).map
      (fun d2 => slotHeight d2.left) = some (some 4) ∧
    slotHeight (some (ImgData.single ⟨8, 3, fun _ _ => (6, 6, 6)⟩)) = some 8 := by
  constructor
  · decide
  · rfl

/-! ### `lib/stitch_layout_manager.calculate_stitching_layout`

Embedded for the pipeline's configuration: `custom_layout=None` (the fallback
that scans for an alternative primary image is never entered — the function
errors when obverse is invalid) and the default `blend_overlap_px = 0` (the
caller in `stitch_images.py` never passes a blend overlap), so
`get_image_dimension` of a sequence is the plain sum of its valid members'
extents along the axis.  The imperative coordinate-dictionary writes are
expressed as one structure whose fields carry the conditional expressions the
source assigns; the running `y_curr` is threaded through the `y0 .. y5`
bindings in source order. -/

/-- `stitch_layout_manager.get_image_dimension` with `blend_overlap_px = 0`:
shape of a valid single raster along the axis, the sum over valid members for
a sequence, 0 otherwise. -/
def get_image_dimension (d : Option ImgData) (axis : Nat) : Nat :=
  match d with
  | some (.single img) => if 0 < img.size then (if axis = 0 then img.h else img.w) else 0
  | some (.seq l) =>
    if l.isEmpty then 0
    else (l.map (fun img =>
      if 0 < img.size then (if axis = 0 then img.h else img.w) else 0)).sum
  | none => 0

/-- The layout stage's coordinate dictionary, one optional `(x, y)` per slot
the source can place. -/
structure LayoutCoords where
  left : Option (Int × Int)
  obverse : Option (Int × Int)
  right : Option (Int × Int)
  bottom : Option (Int × Int)
  reverse : Option (Int × Int)
  top : Option (Int × Int)
  ruler : Option (Int × Int)
  leftRot : Option (Int × Int)
  rightRot : Option (Int × Int)
deriving DecidableEq, Repr

/-- The layout stage's return value: canvas size, the coordinate map, the
derived rotated rasters added to the (shallow-copied) images dictionary, and
the untouched original entries. -/
structure LayoutResult where
  canvasW : Int
  canvasH : Int
  coords : LayoutCoords
  leftRotImg : Option Img
  rightRotImg : Option Img
  dict : ViewDict

/-- `stitch_layout_manager.calculate_stitching_layout(images_dict,
view_gap_px, ruler_padding_px)` (custom_layout = None, blend overlap 0). -/
def calculate_stitching_layout (d : ViewDict) (gap pad : Int) : Except String LayoutResult :=
  let obvH := get_image_dimension d.obverse 0
  let obvW := get_image_dimension d.obverse 1
  if obvH = 0 ∨ obvW = 0 then
    .error "A primary image with valid dimensions is required for layout."
  else
    let lW := get_image_dimension d.left 1
    let rW := get_image_dimension d.right 1
    let bH := get_image_dimension d.bottom 0
    let revH := get_image_dimension d.reverse 0
    let tH := get_image_dimension d.top 0
    let lH := get_image_dimension d.left 0
    let rH := get_image_dimension d.right 0
    let rulH := get_image_dimension d.ruler 0
    let rulW := get_image_dimension d.ruler 1
    let hasL := d.left.isSome
    let hasO := d.obverse.isSome
    let hasR := d.right.isSome
    let row1W : Int :=
      (if hasL then (lW : Int) else 0) +
      (if hasO then (if hasL then gap else 0) + (obvW : Int) else 0) +
      (if hasR then (if hasL || hasO then gap else 0) + (rW : Int) else 0)
    let row1W : Int := if !hasL && !hasO && !hasR then (obvW : Int) else row1W
    let bottomW := get_image_dimension d.bottom 1
    let reverseW := get_image_dimension d.reverse 1
    let topW := get_image_dimension d.top 1
    let revRowW : Int := (reverseW : Int) + (if hasL then (lW : Int) + gap else 0) +
      (if hasR then (rW : Int) + gap else 0)
    let canvasW0 : Int := max row1W (max (obvW : Int) revRowW)
    let canvasW1 : Int := if 0 < bottomW then max canvasW0 (bottomW : Int) else canvasW0
    let canvasW2 : Int := if 0 < topW then max canvasW1 (topW : Int) else canvasW1
    let canvasW3 : Int := if 0 < rulW then max canvasW2 (rulW : Int) else canvasW2
    let canvasW : Int := canvasW3 + 200
    let y0 : Int := 100
    let startXRow1 : Int :=
      if 0 < row1W then (canvasW - row1W).fdiv 2 else (canvasW - (obvW : Int)).fdiv 2
    let coordLeft := if hasL then some (startXRow1, y0) else none
    let obvX : Int :=
      if hasL then startXRow1 + (lW : Int) + gap else (canvasW - (obvW : Int)).fdiv 2
    let coordObv := if hasO then some (obvX, y0) else none
    let xAfterObv : Int := if hasO then obvX + (obvW : Int) + gap else canvasW.fdiv 2
    let coordRight := if hasR then some (xAfterObv, y0) else none
    let y1 : Int := y0 + (obvH : Int)
    let bCond := d.bottom.isSome ∧ 0 < bH
    let coordBottom := if bCond then
        some (obvX + ((obvW : Int) - (bottomW : Int)).fdiv 2, y1 + gap) else none
    let y2 : Int := if bCond then y1 + gap + (bH : Int) else y1
    let revCond := d.reverse.isSome ∧ 0 < revH
    let yR : Int := y2 + gap
    let revRowStartX : Int := (canvasW - revRowW).fdiv 2
    let coordLeftRot := if revCond ∧ hasL then
        some (revRowStartX, yR + ((revH : Int) - (lH : Int)).fdiv 2) else none
    let revX : Int := revRowStartX + (if hasL then (lW : Int) + gap else 0)
    let coordReverse := if revCond then some (revX, yR) else none
    let coordRightRot := if revCond ∧ hasR then
        some (revX + (reverseW : Int) + gap, yR + ((revH : Int) - (rH : Int)).fdiv 2)
      else none
    let y3 : Int := if revCond then yR + (revH : Int) else y2
    let tCond := d.top.isSome ∧ 0 < tH
    let coordTop := if tCond then
        some (obvX + ((obvW : Int) - (topW : Int)).fdiv 2, y3 + gap) else none
    let y4 : Int := if tCond then y3 + gap + (tH : Int) else y3
    let ruCond := d.ruler.isSome ∧ 0 < rulH
    let coordRuler := if ruCond then
        some (obvX + ((obvW : Int) - (rulW : Int)).fdiv 2, y4 + pad) else none
    let y5 : Int := if ruCond then y4 + pad + (rulH : Int) else y4
    let canvasH : Int := y5 + 100
    let leftRotImg := match d.left with
      | some (.single img) => if 0 < img.size then some (rotate180 img) else none
      | _ => none
    let rightRotImg := match d.right with
      | some (.single img) => if 0 < img.size then some (rotate180 img) else none
      | _ => none
    .ok ⟨canvasW, canvasH,
      ⟨coordLeft, coordObv, coordRight, coordBottom, coordReverse, coordTop,
        coordRuler, coordLeftRot, coordRightRot⟩,
      leftRotImg, rightRotImg, d⟩

/-! ### Layout theorems -/

theorem get_dim_single_h (img : Img) (h : 0 < img.size) :
    get_image_dimension (some (.single img)) 0 = img.h := by
  show (if 0 < img.size then (if 0 = 0 then img.h else img.w) else 0) = img.h
  rw [if_pos h]
  rfl

theorem get_dim_single_w (img : Img) (h : 0 < img.size) :
    get_image_dimension (some (.single img)) 1 = img.w := by
  show (if 0 < img.size then (if 1 = 0 then img.h else img.w) else 0) = img.w
  rw [if_pos h]
  rfl

/-- C2 (amended): when the (resized) ViewSet holds single left/right rasters
AND a reverse view with positive extent, the layout stage adds
`left_rotated`/`right_rotated` rasters (the 180°-rotations of the left/right
views), positions `left_rotated` directly left of reverse (reverse starts one
gap past `left_rotated`'s right edge) and `right_rotated` directly right of
it (one gap past reverse's width), each vertically centred on reverse's
vertical span (floor division), and passes the original dictionary entries
through unchanged.  Without a positive reverse view the rotated rasters are
still added but receive no position at all (see the counterexample). -/
theorem layout_rotated_beside_reverse (d : ViewDict) (gap pad : Int) (l rv : Img)
    (hl : d.left = some (.single l)) (hsl : 0 < l.size)
    (hrev : d.reverse = some (.single rv)) (hsrv : 0 < rv.size)
    (hobvH : get_image_dimension d.obverse 0 ≠ 0)
    (hobvW : get_image_dimension d.obverse 1 ≠ 0) :
    ∃ res, calculate_stitching_layout d gap pad = .ok res ∧
      res.dict = d ∧
      res.leftRotImg = some (rotate180 l) ∧
      res.coords.leftRot.isSome = true ∧
      res.coords.reverse = res.coords.leftRot.map
        (fun p => (p.1 + (l.w : Int) + gap,
          p.2 - ((rv.h : Int) - (l.h : Int)).fdiv 2)) ∧
      (∀ rimg, d.right = some (.single rimg) → 0 < rimg.size →
        res.rightRotImg = some (rotate180 rimg) ∧
        res.coords.rightRot = res.coords.reverse.map
          (fun q => (q.1 + (rv.w : Int) + gap,
            q.2 + ((rv.h : Int) - (rimg.h : Int)).fdiv 2))) := by
  have hrvh : 0 < rv.h := by
    unfold Img.size at hsrv
    rcases Nat.eq_zero_or_pos rv.h with h | h
    · rw [h, Nat.zero_mul] at hsrv; omega
    · exact h
  have hlWd : get_image_dimension d.left 1 = l.w := by
    rw [hl]; exact get_dim_single_w l hsl
  have hlHd : get_image_dimension d.left 0 = l.h := by
    rw [hl]; exact get_dim_single_h l hsl
  have hrevHd : get_image_dimension d.reverse 0 = rv.h := by
    rw [hrev]; exact get_dim_single_h rv hsrv
  have hrevWd : get_image_dimension d.reverse 1 = rv.w := by
    rw [hrev]; exact get_dim_single_w rv hsrv
  have hhasL : d.left.isSome = true := by rw [hl]; rfl
  have hhasRev : d.reverse.isSome = true := by rw [hrev]; rfl
  have hrevCond : d.reverse.isSome = true ∧ 0 < get_image_dimension d.reverse 0 :=
    ⟨hhasRev, by rw [hrevHd]; exact hrvh⟩
  have hLCond : (d.reverse.isSome = true ∧ 0 < get_image_dimension d.reverse 0) ∧
      d.left.isSome = true := ⟨hrevCond, hhasL⟩
  unfold calculate_stitching_layout
  rw [if_neg (by push_neg; exact ⟨hobvH, hobvW⟩)]
  refine ⟨_, rfl, rfl, ?_, ?_, ?_, ?_⟩
  · show (match d.left with
      | some (.single img) => if 0 < img.size then some (rotate180 img) else none
      | _ => none) = some (rotate180 l)
    rw [hl]
    simp only
    rw [if_pos hsl]
  · show (if ((d.reverse.isSome = true ∧ 0 < get_image_dimension d.reverse 0) ∧
        d.left.isSome = true) then _ else none).isSome = true
    rw [if_pos hLCond]
    rfl
  · show (if (d.reverse.isSome = true ∧ 0 < get_image_dimension d.reverse 0) then _
        else none) =
      (if ((d.reverse.isSome = true ∧ 0 < get_image_dimension d.reverse 0) ∧
        d.left.isSome = true) then _ else none).map _
    rw [if_pos hrevCond, if_pos hLCond]
    simp only [Option.map_some']
    rw [hlWd, hlHd, hrevHd]
    simp only [hhasL, eq_self_iff_true, if_true]
    refine congrArg some ?_
    rw [Prod.mk.injEq]
    exact ⟨by ring, by ring⟩
  · intro rimg hr hsr
    have hhasR : d.right.isSome = true := by rw [hr]; rfl
    have hrHd : get_image_dimension d.right 0 = rimg.h := by
      rw [hr]; exact get_dim_single_h rimg hsr
    refine ⟨?_, ?_⟩
    · show (match d.right with
        | some (.single img) => if 0 < img.size then some (rotate180 img) else none
        | _ => none) = some (rotate180 rimg)
      rw [hr]
      simp only
      rw [if_pos hsr]
    · show (if ((d.reverse.isSome = true ∧ 0 < get_image_dimension d.reverse 0) ∧
          d.right.isSome = true) then _ else none) =
        (if (d.reverse.isSome = true ∧ 0 < get_image_dimension d.reverse 0) then _
          else none).map _
      have hRCond : (d.reverse.isSome = true ∧ 0 < get_image_dimension d.reverse 0) ∧
          d.right.isSome = true := ⟨hrevCond, hhasR⟩
      rw [if_pos hRCond, if_pos hrevCond]
      simp only [Option.map_some']
      rw [hrevWd, hrHd, hrevHd]

/-- Concrete left view for the layout witness. -/
def c2left : Img := constImg 2 1 (30, 30, 30)

/-- Concrete reverse view for the layout witness. -/
def c2rev : Img := constImg 2 2 (20, 20, 20)

/-- Concrete view dictionary (obverse, left and reverse present) for the
layout witness. -/
def c2dict : ViewDict :=
  { obverse := some (.single (constImg 2 2 (10, 10, 10)))
    reverse := some (.single c2rev)
    top := none
    bottom := none
    left := some (.single c2left)
    right := none
    ruler := none }

theorem layout_rotated_beside_reverse_witness :
    (c2dict.left = some (.single c2left) ∧ 0 < c2left.size ∧
      c2dict.reverse = some (.single c2rev) ∧ 0 < c2rev.size ∧
      get_image_dimension c2dict.obverse 0 ≠ 0 ∧
      get_image_dimension c2dict.obverse 1 ≠ 0) ∧
    (∃ res, calculate_stitching_layout c2dict 100 100 = .ok res ∧
      res.dict = c2dict ∧
      res.leftRotImg = some (rotate180 c2left) ∧
      res.coords.leftRot.isSome = true ∧
      res.coords.reverse = res.coords.leftRot.map
        (fun p => (p.1 + (c2left.w : Int) + 100,
          p.2 - ((c2rev.h : Int) - (c2left.h : Int)).fdiv 2)) ∧
      (∀ rimg, c2dict.right = some (.single rimg) → 0 < rimg.size →
        res.rightRotImg = some (rotate180 rimg) ∧
        res.coords.rightRot = res.coords.reverse.map
          (fun q => (q.1 + (c2rev.w : Int) + 100,
            q.2 + ((c2rev.h : Int) - (rimg.h : Int)).fdiv 2)))) :=
  ⟨⟨rfl, by decide, rfl, by decide, by decide, by decide⟩,
   layout_rotated_beside_reverse c2dict 100 100 c2left c2rev rfl (by decide)
     rfl (by decide) (by decide) (by decide)⟩

/-- Concrete view dictionary with a left view but no reverse view. -/
def c2dictNoRev : ViewDict :=
  { obverse := some (.single (constImg 4 4 (10, 10, 10)))
    reverse := none
    top := none
    bottom := none
    left := some (.single (constImg 4 2 (30, 30, 30)))
    right := none
    ruler := none }

/-- C2 counterexample: with a left view but no reverse view the layout stage
still adds the rotated raster, yet assigns it no position at all — it is not
"positioned beside the reverse slot" as the claim requires for every ViewSet
containing a left view. -/
theorem layout_rotated_unpositioned_without_reverse :
    (calculate_stitching_layout c2dictNoRev 100 100).toOption.map
      (fun res => (res.coords.leftRot, res.leftRotImg.isSome)) =
      some (none, true) := by
  decide
